import Mathlib

/-!
Verification development for the search-engine repository.

This file gives a shallow embedding, in Lean 4, of the parts of the
repository that the verified claims are about:

* the permissive json-pointer selector `perm_json_p::contained_in` and the
  two field-path walkers (`milli/src/update/new/extract/mod.rs` and the
  legacy copy in `milli/src/update/new/extract/tokenize_document.rs`);
* the two copies of `process_tokens` that assign positions to tokens
  (`.../searchable/tokenize_document.rs` and the legacy copy);
* the compressed-document codec (`milli/src/heed_codec/compressed_obkv_codec.rs`);
* the extraction cache (`milli/src/update/index_documents/cache.rs`);
* `Task::is_finished` (`meilisearch-lib/src/tasks/task.rs`);
* snapshot creation and `load_snapshot`
  (`meilisearch-lib/src/index_controller/snapshot.rs`);
* the csv-delimiter query parameter handling
  (`meilisearch/src/routes/indexes/documents.rs`).

Machine integers are modelled by `Nat` (the code never relies on wrap-around
for the quantities involved), byte strings by `List Nat`, Rust strings by
`List Char`, and fallible code by `Except` or `Option`.
-/

/-! ## Permissive json pointer: `contained_in` (perm_json_p, mod.rs and legacy) -/

/-- The split symbol of dotted paths, `const SPLIT_SYMBOL: char = '.'`. -/
def SPLIT_SYMBOL : Char := '.'

/-- Embedding of `perm_json_p::contained_in`.  Strings are modelled as lists
of characters; the Rust byte slicing `selector[key.len()..]` is only reached
when `selector` starts with `key` (short-circuiting `&&`), in which case the
byte boundary is a character boundary and char-level slicing coincides. -/
def contained_in (selector key : List Char) : Bool :=
  key.isPrefixOf selector &&
    ((selector.drop key.length).head?.all fun c => c == SPLIT_SYMBOL)

/-! ## Task events and `Task::is_finished` (meilisearch-lib/src/tasks/task.rs) -/

/-- Embedding of `TaskResult`. -/
inductive TaskResult
  | documentAddition (indexed_documents : Nat)
  | documentDeletion (deleted_documents : Nat)
  | clearAll (deleted_documents : Nat)
  | other
deriving DecidableEq, Repr

/-- Embedding of `TaskEvent`; timestamps are modelled as naturals and
`ResponseError` payloads as strings (the variant spelled `Succeded` in the
source is kept with that spelling). -/
inductive TaskEvent
  | created (timestamp : Nat)
  | batched (timestamp : Nat) (batch_id : Nat)
  | processing (timestamp : Nat)
  | succeded (result : TaskResult) (timestamp : Nat)
  | failed (error : String) (timestamp : Nat)
deriving DecidableEq, Repr

/-- Embedding of `DocumentDeletion`. -/
inductive DocumentDeletion
  | clear
  | ids (ids : List String)
deriving DecidableEq, Repr

/-- Embedding of `IndexDocumentsMethod` (milli). -/
inductive IndexDocumentsMethod
  | replaceDocuments
  | updateDocuments
deriving DecidableEq, Repr

/-- Embedding of `TaskContent`; the `Settings<Unchecked>` payload is opaque
to every operation in this development and is elided. -/
inductive TaskContent
  | documentAddition (content_uuid : Nat) (merge_strategy : IndexDocumentsMethod)
      (primary_key : Option String) (documents_count : Nat)
  | documentDeletion (deletion : DocumentDeletion)
  | settingsUpdate (is_deletion : Bool)
  | indexDeletion
  | indexCreation (primary_key : Option String)
  | indexUpdate (primary_key : Option String)
deriving DecidableEq, Repr

/-- Embedding of `Task` (named `MeiliTask` because `Task` is taken by the
Lean core library). -/
structure MeiliTask where
  id : Nat
  index_uid : String
  content : TaskContent
  events : List TaskEvent
deriving DecidableEq, Repr

/-- Embedding of `Task::is_finished`: true when the last event is
`Succeded { .. }` or `Failed { .. }`, false when there is no event. -/
def MeiliTask.is_finished (t : MeiliTask) : Bool :=
  match t.events.getLast? with
  | some (TaskEvent.succeded _ _) => true
  | some (TaskEvent.failed _ _) => true
  | some _ => false
  | none => false

/-! ## `load_snapshot` (meilisearch-lib/src/index_controller/snapshot.rs) -/

/-- Embedding of `load_snapshot`.  The filesystem facts it branches on are
passed as booleans (`db_exists` for `db_path.exists()`, `snapshot_exists`
for `snapshot_path.exists()`); the outcome of the external `from_tar_gz`
extraction is passed as `extract_result`.  The returned boolean records
whether extraction was attempted. -/
def load_snapshot (db_exists snapshot_exists : Bool)
    (ignore_snapshot_if_db_exists ignore_missing_snapshot : Bool)
    (extract_result : Except String Unit) : Except String Unit × Bool :=
  if !db_exists && snapshot_exists then
    match extract_result with
    | .ok () => (.ok (), true)
    | .error e => (.error e, true)
  else if db_exists && !ignore_snapshot_if_db_exists then
    (.error "database already exists", false)
  else if !snapshot_exists && !ignore_missing_snapshot then
    (.error "snapshot does not exist", false)
  else
    (.ok (), false)

/-! ## Csv delimiter query parameter (meilisearch/src/routes/indexes/documents.rs) -/

/-- Error codes appearing in this development (a fragment of the `Code`
enumeration). -/
inductive ErrCode
  | invalidDocumentCsvDelimiter
deriving DecidableEq, Repr

/-- Embedding of `DeserrQueryParamError`: a message and a code. -/
structure QueryParamError where
  message : String
  code : ErrCode
deriving DecidableEq, Repr

/-- Embedding of `char::is_ascii` from the Rust standard library: a
character is ascii when its code point is at most `0x7F`. -/
def char_is_ascii (c : Char) : Bool := c.toNat ≤ 127

/-- Embedding of `from_char_csv_delimiter`: accept any ascii character as
the csv delimiter byte, reject anything else with
`invalid_document_csv_delimiter`. -/
def from_char_csv_delimiter (c : Char) : Except QueryParamError (Option Nat) :=
  if char_is_ascii c then
    .ok (some c.toNat)
  else
    .error { message := "csv delimiter must be an ascii character",
             code := .invalidDocumentCsvDelimiter }

/-- Embedding of `PayloadType`. -/
inductive PayloadType
  | json
  | ndjson
  | csv (delimiter : Nat)
deriving DecidableEq, Repr

/-- Errors surfaced by the document-addition handler model. -/
inductive HttpError
  | csvDelimiterWithWrongContentType (content_type : String)
  | invalidContentType (content_type : String)
  | missingContentType
  | invalidQueryParam (e : QueryParamError)
deriving DecidableEq, Repr

/-- Embedding of the `format` match at the top of `document_addition`
(the mime type is modelled as its `(type, subtype)` pair). -/
def document_addition_format (mime : Option (String × String))
    (csv_delimiter : Option Nat) : Except HttpError PayloadType :=
  match mime, csv_delimiter with
  | some ("application", "json"), none => .ok .json
  | some ("application", "x-ndjson"), none => .ok .ndjson
  | some ("text", "csv"), none => .ok (.csv 44)
  | some ("text", "csv"), some delimiter => .ok (.csv delimiter)
  | some ("application", "json"), some _ =>
      .error (.csvDelimiterWithWrongContentType "application/json")
  | some ("application", "x-ndjson"), some _ =>
      .error (.csvDelimiterWithWrongContentType "application/x-ndjson")
  | some (t, s), _ => .error (.invalidContentType (t ++ "/" ++ s))
  | none, _ => .error .missingContentType

/-- The deserr-driven extraction of the `csvDelimiter` query parameter:
it runs `from_char_csv_delimiter` before the handler body, so a rejection
happens before any task is enqueued. -/
def parse_csv_delimiter_param (raw : Option Char) : Except HttpError (Option Nat) :=
  match raw with
  | none => .ok none
  | some c =>
    match from_char_csv_delimiter c with
    | .ok d => .ok d
    | .error e => .error (.invalidQueryParam e)

/-- The document add/update handler model up to format selection: query
parameter extraction happens first and short-circuits, then the format
match of `document_addition` runs.  An `.error` outcome means no task was
enqueued. -/
def document_addition_model (mime : Option (String × String))
    (raw_delimiter : Option Char) : Except HttpError PayloadType :=
  match parse_csv_delimiter_param raw_delimiter with
  | .error e => .error e
  | .ok d => document_addition_format mime d

/-- Modelled from the spec: the error taxonomy maps each code to an HTTP
status (the `Code` to status map lives in meilisearch-types, not under
src/); `invalid_document_csv_delimiter` is an invalid-request code answered
with status 400. -/
def statusOfCode : ErrCode → Nat
  | .invalidDocumentCsvDelimiter => 400

/-! ## Theorems -/

/-- C3: for all strings `sel` and `key`, `contained_in sel key` is true iff
`sel` starts with `key` and the character of `sel` immediately after that
prefix is either absent or `'.'`; in particular `contained_in "a.b" "a"` is
true, `contained_in "ab" "a"` is false and `contained_in "a.b" "a.b.c"` is
false. -/
theorem contained_in_spec :
    (∀ sel key : List Char, contained_in sel key = true ↔
      key <+: sel ∧
        ((sel.drop key.length).head? = none ∨ (sel.drop key.length).head? = some '.'))
    ∧ contained_in ['a', '.', 'b'] ['a'] = true
    ∧ contained_in ['a', 'b'] ['a'] = false
    ∧ contained_in ['a', '.', 'b'] ['a', '.', 'b', '.', 'c'] = false := by
  refine ⟨?_, by decide, by decide, by decide⟩
  intro sel key
  unfold contained_in
  rw [Bool.and_eq_true, List.isPrefixOf_iff_prefix]
  cases h : (sel.drop key.length).head? with
  | none => simp [h]
  | some c =>
    simp only [h, Option.all_some, beq_iff_eq, SPLIT_SYMBOL]
    constructor
    · rintro ⟨hp, rfl⟩
      exact ⟨hp, Or.inr rfl⟩
    · rintro ⟨hp, hc | hc⟩
      · exact absurd hc (by simp)
      · exact ⟨hp, by injection hc⟩

/-- C6: for every task `t`, `is_finished t` is true iff the event list of
`t` is non-empty and its last event is `Succeded` or `Failed`; in
particular a task with no events is not finished and a task whose last
event is `Created`, `Batched` or `Processing` is not finished. -/
theorem is_finished_spec :
    (∀ t : MeiliTask, t.is_finished = true ↔
      (∃ e, t.events.getLast? = some e ∧
        ((∃ r ts, e = TaskEvent.succeded r ts) ∨ (∃ err ts, e = TaskEvent.failed err ts))))
    ∧ (MeiliTask.mk 0 "movies" .indexDeletion []).is_finished = false
    ∧ (MeiliTask.mk 0 "movies" .indexDeletion [.created 0]).is_finished = false
    ∧ (MeiliTask.mk 0 "movies" .indexDeletion [.created 0, .batched 1 0]).is_finished = false
    ∧ (MeiliTask.mk 0 "movies" .indexDeletion [.created 0, .processing 1]).is_finished = false
    ∧ (MeiliTask.mk 0 "movies" .indexDeletion
        [.created 0, .succeded .other 1]).is_finished = true
    ∧ (MeiliTask.mk 0 "movies" .indexDeletion
        [.created 0, .failed "boom" 1]).is_finished = true := by
  refine ⟨?_, by decide, by decide, by decide, by decide, by decide, by decide⟩
  intro t
  unfold MeiliTask.is_finished
  cases h : t.events.getLast? with
  | none => simp
  | some e =>
    cases e with
    | created ts => simp
    | batched ts b => simp
    | processing ts => simp
    | succeded r ts => exact ⟨fun _ => ⟨_, rfl, Or.inl ⟨r, ts, rfl⟩⟩, fun _ => rfl⟩
    | failed err ts => exact ⟨fun _ => ⟨_, rfl, Or.inr ⟨err, ts, rfl⟩⟩, fun _ => rfl⟩

/-- C8 counterexample: with the database directory present, the snapshot
file absent, `ignore_snapshot_if_db_exists = true` and
`ignore_missing_snapshot = false`, the claim places the input in its
"every remaining case" bucket and predicts `Ok`, but the code's third
branch only tests the snapshot file and the flag, so `load_snapshot`
returns an error. -/
theorem load_snapshot_claim_counterexample :
    load_snapshot true false true false (.ok ()) =
      (.error "snapshot does not exist", false) := rfl

/-- C8 (amended): case analysis of `load_snapshot`: extract and succeed
when the database directory is absent and the snapshot present (under a
successful extraction); refuse to start when the directory exists and
`ignore_snapshot_if_db_exists` is false; error whenever the snapshot file
is absent and `ignore_missing_snapshot` is false (regardless of the
database directory); succeed without extracting in every remaining
case. -/
theorem load_snapshot_spec (db snap idb imiss : Bool) (ex : Except String Unit) :
    (db = false → snap = true → ex = .ok () →
      load_snapshot db snap idb imiss ex = (.ok (), true))
    ∧ (db = true → idb = false →
      ∃ e, load_snapshot db snap idb imiss ex = (.error e, false))
    ∧ (snap = false → imiss = false →
      ∃ e, load_snapshot db snap idb imiss ex = (.error e, false))
    ∧ (db = true → idb = true → snap = true →
      load_snapshot db snap idb imiss ex = (.ok (), false))
    ∧ (db = true → idb = true → snap = false → imiss = true →
      load_snapshot db snap idb imiss ex = (.ok (), false))
    ∧ (db = false → snap = false → imiss = true →
      load_snapshot db snap idb imiss ex = (.ok (), false)) := by
  cases db <;> cases snap <;> cases idb <;> cases imiss <;>
    refine ⟨?_, ?_, ?_, ?_, ?_, ?_⟩ <;>
      simp_all [load_snapshot]

/-- C8 witness: the theorem applied at a concrete input. -/
theorem load_snapshot_spec_witness :
    load_snapshot false true false false (.ok ()) = (.ok (), true) :=
  (load_snapshot_spec false true false false (.ok ())).1 rfl rfl rfl

/-- C9: the document add/update handlers accept a `csvDelimiter` character
and use it as the csv delimiter exactly when it is ascii; a non-ascii
character such as `'€'` is rejected before any task is enqueued with the
code `invalid_document_csv_delimiter`, answered with status 400. -/
theorem csv_delimiter_spec (c : Char) :
    (char_is_ascii c = true →
      document_addition_model (some ("text", "csv")) (some c) = .ok (.csv c.toNat))
    ∧ (char_is_ascii c = false → ∀ mime, ∃ msg,
      document_addition_model mime (some c) =
        .error (.invalidQueryParam ⟨msg, .invalidDocumentCsvDelimiter⟩))
    ∧ (∃ msg, from_char_csv_delimiter '€' =
        .error ⟨msg, .invalidDocumentCsvDelimiter⟩)
    ∧ statusOfCode .invalidDocumentCsvDelimiter = 400 := by
  refine ⟨?_, ?_, ⟨"csv delimiter must be an ascii character", rfl⟩, rfl⟩
  · intro h
    simp [document_addition_model, parse_csv_delimiter_param,
      from_char_csv_delimiter, h, document_addition_format]
  · intro h mime
    refine ⟨"csv delimiter must be an ascii character", ?_⟩
    simp [document_addition_model, parse_csv_delimiter_param,
      from_char_csv_delimiter, h]

/-- C9 witness: the theorem applied at the concrete characters `','` and
`'€'`. -/
theorem csv_delimiter_spec_witness :
    document_addition_model (some ("text", "csv")) (some ',') = .ok (.csv 44)
    ∧ ∃ msg, document_addition_model (some ("text", "csv")) (some '€') =
        .error (.invalidQueryParam ⟨msg, .invalidDocumentCsvDelimiter⟩) :=
  ⟨(csv_delimiter_spec ',').1 (by decide),
   (csv_delimiter_spec '€').2.1 (by decide) (some ("text", "csv"))⟩

/-! ## Compressed-document codec (milli/src/heed_codec/compressed_obkv_codec.rs) -/

/-- Embedding of `obkv::KvReaderU16::new` (the obkv crate is external): the
reader is modelled as the byte slice it reads over. -/
structure KvReaderU16 where
  bytes : List Nat
deriving DecidableEq, Repr

/-- Constructor `KvReaderU16::new`. -/
def KvReaderU16.new (b : List Nat) : KvReaderU16 := ⟨b⟩

/-- Modelled from the spec: `lz4_flex::block::get_maximum_output_size`
(external crate, not under src/), the worst-case compressed size for `n`
input bytes: `n + n / 255 + 16`. -/
def get_maximum_output_size (n : Nat) : Nat := n + n / 255 + 16

/-- Modelled from the spec: the length header of the lz4 block emitted by
the modelled compressor, a chain of `255` bytes followed by the remainder
byte. -/
def lz4_length_header (n : Nat) : List Nat :=
  if _h : n < 255 then [n] else 255 :: lz4_length_header (n - 255)
decreasing_by omega

/-- Modelled from the spec: `lz4_flex::block::compress_with_dict` (external
crate, not under src/).  The spec constrains the external pair of functions
only through the round-trip contract `decode(encode(raw_kv, dict), dict) ==
raw_kv`; the model realises it as a degenerate but valid compressor that
emits the input as a single run of literal bytes behind a length header. -/
def compress_with_dict (input _dictionnary : List Nat) : List Nat :=
  lz4_length_header input.length ++ input

/-- Modelled from the spec: the header-reading half of
`lz4_flex::block::decompress_into_with_dict`. -/
def lz4_read_header : List Nat → Option (Nat × List Nat)
  | [] => none
  | b :: rest =>
    if b = 255 then
      match lz4_read_header rest with
      | some (n, rest') => some (255 + n, rest')
      | none => none
    else some (b, rest)

/-- Modelled from the spec: `lz4_flex::block::decompress_into_with_dict`
(external crate, not under src/): decode the block into the caller's
buffer, returning the number of bytes written and the updated buffer;
fail on a malformed block or a too-small buffer. -/
def decompress_into_with_dict (data buffer _dictionnary : List Nat) :
    Option (Nat × List Nat) :=
  match lz4_read_header data with
  | none => none
  | some (n, payload) =>
    if payload.length = n ∧ n ≤ buffer.length then
      some (n, payload ++ buffer.drop n)
    else
      none

/-- Embedding of `CompressedKvReaderU16`, a view over a stored byte
slice. -/
structure CompressedKvReaderU16 where
  bytes : List Nat
deriving DecidableEq, Repr

/-- Embedding of `Vec::resize`: truncate or extend with the fill value. -/
def vec_resize (v : List Nat) (n : Nat) (fill : Nat) : List Nat :=
  if n ≤ v.length then v.take n else v ++ List.replicate (n - v.length) fill

/-- Embedding of `CompressedKvReaderU16::decompress_with`: resize the
caller's buffer to the maximum output size computed from the stored
length, decompress into it with the dictionary, and return a reader over
the first `size` bytes of the buffer. -/
def CompressedKvReaderU16.decompress_with (r : CompressedKvReaderU16)
    (buffer dictionnary : List Nat) : Option KvReaderU16 :=
  match decompress_into_with_dict r.bytes
      ((vec_resize buffer (get_maximum_output_size r.bytes.length) 0).take
        (get_maximum_output_size r.bytes.length)) dictionnary with
  | some (size, buffer') => some (KvReaderU16.new (buffer'.take size))
  | none => none

/-- Embedding of `CompressedKvReaderU16::as_non_compressed`: return the
reader as if the slice were not compressed (the "no dictionary yet" fast
path). -/
def CompressedKvReaderU16.as_non_compressed (r : CompressedKvReaderU16) :
    KvReaderU16 :=
  KvReaderU16.new r.bytes

/-- Embedding of `CompressedKvWriterU16`. -/
structure CompressedKvWriterU16 where
  bytes : List Nat
deriving DecidableEq, Repr

/-- Embedding of `CompressedKvWriterU16::new_with_dictionnary`. -/
def CompressedKvWriterU16.new_with_dictionnary (writer dictionnary : List Nat) :
    CompressedKvWriterU16 :=
  ⟨compress_with_dict writer dictionnary⟩

/-- Embedding of `ObkvCompressedCodec::bytes_decode`: wrap the stored
bytes in a compressed reader. -/
def ObkvCompressedCodec.bytes_decode (bytes : List Nat) : CompressedKvReaderU16 :=
  ⟨bytes⟩

/-- Embedding of `ObkvCompressedCodec::bytes_encode`: a writer is stored
as its bytes. -/
def ObkvCompressedCodec.bytes_encode (item : CompressedKvWriterU16) : List Nat :=
  item.bytes

/-- Reading back a length header recovers the length and the payload. -/
theorem lz4_read_header_append (n : Nat) (x : List Nat) :
    lz4_read_header (lz4_length_header n ++ x) = some (n, x) := by
  induction n using Nat.strong_induction_on with
  | _ n ih =>
    unfold lz4_length_header
    by_cases h : n < 255
    · simp only [h, dif_pos, List.cons_append, List.nil_append, lz4_read_header]
      rw [if_neg (by omega)]
    · simp only [h, dif_neg, List.cons_append, lz4_read_header, List.append_eq,
        if_true, eq_self_iff_true]
      rw [ih (n - 255) (by omega)]
      simp only [Option.some.injEq, Prod.mk.injEq, and_true]
      omega

/-- A length header is at least one byte long. -/
theorem lz4_length_header_length_pos (n : Nat) : 1 ≤ (lz4_length_header n).length := by
  unfold lz4_length_header
  by_cases h : n < 255 <;> simp [h]

/-- The resized buffer has the requested length. -/
theorem vec_resize_length (v : List Nat) (n fill : Nat) :
    (vec_resize v n fill).length = n := by
  unfold vec_resize
  by_cases h : n ≤ v.length
  · simp [h]
  · simp [h]
    omega

/-- Decompressing the block produced by the modelled compressor writes the
original bytes at the front of the buffer. -/
theorem decompress_into_round (raw dictionnary buf : List Nat)
    (h : raw.length ≤ buf.length) :
    decompress_into_with_dict (compress_with_dict raw dictionnary) buf dictionnary =
      some (raw.length, raw ++ buf.drop raw.length) := by
  unfold decompress_into_with_dict compress_with_dict
  rw [lz4_read_header_append]
  dsimp only
  rw [if_pos ⟨rfl, h⟩]

/-- C2: decoding the block produced by encoding `raw_kv` against a
dictionary, with the same dictionary, yields `raw_kv` again; and with no
dictionary the reader returns the stored slice unchanged
(`as_non_compressed` is the identity on the stored bytes). -/
theorem codec_round_trip :
    (∀ raw_kv dictionnary buffer : List Nat,
      (ObkvCompressedCodec.bytes_decode
          (ObkvCompressedCodec.bytes_encode
            (CompressedKvWriterU16.new_with_dictionnary raw_kv dictionnary))).decompress_with
          buffer dictionnary = some (KvReaderU16.new raw_kv))
    ∧ (∀ bytes : List Nat,
      (ObkvCompressedCodec.bytes_decode bytes).as_non_compressed = KvReaderU16.new bytes) := by
  constructor
  · intro raw_kv dictionnary buffer
    have hlen : raw_kv.length ≤
        get_maximum_output_size (compress_with_dict raw_kv dictionnary).length := by
      have := lz4_length_header_length_pos raw_kv.length
      unfold get_maximum_output_size compress_with_dict
      simp only [List.length_append]
      omega
    have hb : raw_kv.length ≤
        ((vec_resize buffer (get_maximum_output_size
            (compress_with_dict raw_kv dictionnary).length) 0).take
          (get_maximum_output_size (compress_with_dict raw_kv dictionnary).length)).length := by
      rw [List.length_take, vec_resize_length]
      simpa [min_self] using hlen
    unfold CompressedKvReaderU16.decompress_with
    unfold ObkvCompressedCodec.bytes_decode ObkvCompressedCodec.bytes_encode
    unfold CompressedKvWriterU16.new_with_dictionnary
    simp only
    rw [decompress_into_round raw_kv dictionnary _ hb]
    simp [KvReaderU16.new, List.take_left]
  · intro bytes
    rfl

/-! ## Tokens and `process_tokens` (two copies) -/

/-- Embedding of charabia's `SeparatorKind` (external crate). -/
inductive SeparatorKind
  | hard
  | soft
deriving DecidableEq, Repr

/-- Embedding of charabia's `TokenKind` (external crate). -/
inductive TokenKind
  | word
  | stopWord
  | separator (k : SeparatorKind)
  | unknown
deriving DecidableEq, Repr

/-- Embedding of charabia's `Token` restricted to the two fields
`process_tokens` reads: the kind and the normalized lemma text. -/
structure Token where
  kind : TokenKind
  lemmaText : List Char
deriving DecidableEq, Repr

/-- Embedding of `Token::is_separator`. -/
def Token.is_separator (t : Token) : Bool :=
  match t.kind with
  | .separator _ => true
  | _ => false

/-- Embedding of `Token::is_word`: charabia classifies a token as a word
exactly when its kind is `Word`. -/
def Token.is_word (t : Token) : Bool :=
  match t.kind with
  | .word => true
  | _ => false

/-- Modelled from the spec: `MAX_DISTANCE` (defined in `crate::proximity`,
which is not under src/), the fixed constant governing proximity scoring.
Its value is pinned to 8 by the snapshot test of
`searchable/tokenize_document.rs`, which records positions `0`,
`MAX_DISTANCE`, `16` for three successive leaves of one field: each leaf
advances the field counter by `MAX_DISTANCE`, so `2 * MAX_DISTANCE =
16`. -/
def MAX_DISTANCE : Nat := 8

/-- One step of the `scan` inside `process_tokens`
(`milli/src/update/new/extract/searchable/tokenize_document.rs`): from the
state `(offset, prev_kind)` and the incoming token, produce the next state
and the emitted `(offset, token)` pair.  The hard-separator advance is the
parameter `d` (`MAX_DISTANCE` in this copy).  Offsets are modelled as
naturals (`u32` in the source). -/
def processStep (d : Nat) (st : Nat × Option TokenKind) (t : Token) :
    (Nat × Option TokenKind) × (Nat × Token) :=
  match st with
  | (offset, prev_kind) =>
    if (t.kind = .word ∨ t.kind = .stopWord) ∧ t.lemmaText ≠ [] then
      let offset := offset +
        (match prev_kind with
          | some (TokenKind.separator SeparatorKind.hard) => d
          | some _ => 1
          | none => 0)
      ((offset, some t.kind), (offset, t))
    else if t.kind = .separator .hard then
      ((offset, some t.kind), (offset, t))
    else if t.kind = .separator .soft ∧ prev_kind ≠ some (.separator .hard) then
      ((offset, some t.kind), (offset, t))
    else
      ((offset, prev_kind), (offset, { t with kind := .unknown }))

/-- The `scan` combinator of `process_tokens`, emitting one pair per input
token while threading the state. -/
def processScan (d : Nat) : Nat × Option TokenKind → List Token → List (Nat × Token)
  | _, [] => []
  | st, t :: ts =>
    let (st', out) := processStep d st t
    out :: processScan d st' ts

/-- Embedding of `process_tokens`
(`milli/src/update/new/extract/searchable/tokenize_document.rs`): skip the
leading separators, scan assigning positions from `start_offset`, and keep
only the word tokens. -/
def process_tokens (d start_offset : Nat) (tokens : List Token) :
    List (Nat × Token) :=
  (processScan d (start_offset, none) (tokens.dropWhile Token.is_separator)).filter
    (fun p => p.2.is_word)

/-- One step of the `scan` inside the legacy `process_tokens`
(`milli/src/update/new/extract/tokenize_document.rs`): identical to
`processStep` except that the hard-separator advance is the literal
constant 8.  Offsets are `usize` in this copy, also modelled as
naturals. -/
def processStep_legacy (st : Nat × Option TokenKind) (t : Token) :
    (Nat × Option TokenKind) × (Nat × Token) :=
  match st with
  | (offset, prev_kind) =>
    if (t.kind = .word ∨ t.kind = .stopWord) ∧ t.lemmaText ≠ [] then
      let offset := offset +
        (match prev_kind with
          | some (TokenKind.separator SeparatorKind.hard) => 8
          | some _ => 1
          | none => 0)
      ((offset, some t.kind), (offset, t))
    else if t.kind = .separator .hard then
      ((offset, some t.kind), (offset, t))
    else if t.kind = .separator .soft ∧ prev_kind ≠ some (.separator .hard) then
      ((offset, some t.kind), (offset, t))
    else
      ((offset, prev_kind), (offset, { t with kind := .unknown }))

/-- The `scan` combinator of the legacy `process_tokens`. -/
def processScan_legacy : Nat × Option TokenKind → List Token → List (Nat × Token)
  | _, [] => []
  | st, t :: ts =>
    let (st', out) := processStep_legacy st t
    out :: processScan_legacy st' ts

/-- Embedding of the legacy `process_tokens`
(`milli/src/update/new/extract/tokenize_document.rs`). -/
def process_tokens_legacy (start_offset : Nat) (tokens : List Token) :
    List (Nat × Token) :=
  (processScan_legacy (start_offset, none) (tokens.dropWhile Token.is_separator)).filter
    (fun p => p.2.is_word)

/-- The legacy scan step is the parametric step at `d = 8`. -/
theorem processStep_legacy_eq (st : Nat × Option TokenKind) (t : Token) :
    processStep_legacy st t = processStep 8 st t := by
  cases st
  rfl

/-- The legacy scan is the parametric scan at `d = 8`. -/
theorem processScan_legacy_eq (st : Nat × Option TokenKind) (ts : List Token) :
    processScan_legacy st ts = processScan 8 st ts := by
  induction ts generalizing st with
  | nil => rfl
  | cons t ts ih =>
    rw [processScan_legacy, processScan, processStep_legacy_eq]
    cases h : processStep 8 st t with
    | mk st' out => simp [ih]

/-- C10: the two copies of `process_tokens` are extensionally equal: for
every start offset and every input token stream, the copy that advances by
`MAX_DISTANCE` on hard separators and the copy that advances by the
literal constant 8 emit the same sequence of `(position, token)` pairs. -/
theorem process_tokens_copies_agree (start_offset : Nat) (tokens : List Token) :
    process_tokens MAX_DISTANCE start_offset tokens =
      process_tokens_legacy start_offset tokens := by
  unfold process_tokens process_tokens_legacy
  rw [processScan_legacy_eq]
  rfl

/-- Does a token list contain a hard separator? -/
def hasHard (ts : List Token) : Bool :=
  ts.any fun t => decide (t.kind = .separator .hard)

/-- The previous-kind tracking of the scan across one separator token: a
hard separator wins and then persists, a soft separator records itself
only when the previous kind is not a hard separator. -/
def midStep (k : TokenKind) (t : Token) : TokenKind :=
  if t.kind = .separator .hard then .separator .hard
  else if t.kind = .separator .soft ∧ k ≠ .separator .hard then .separator .soft
  else k

/-- The previous-kind after a run of separators. -/
def midFold (k : TokenKind) (mid : List Token) : TokenKind :=
  mid.foldl midStep k

/-- The tokens of one word group: the separators lying between two
consecutive words, then the word. -/
def groupTokens (g : List Token × Token) : List Token :=
  g.1 ++ [g.2]

/-- A stream shaped as leading separators, a first word, then word
groups. -/
def buildStream (lead : List Token) (w1 : Token)
    (gs : List (List Token × Token)) : List Token :=
  lead ++ w1 :: (gs.map groupTokens).flatten

/-- The positions the specification predicts for the words after the
first one: starting from the previous word's position, each word advances
by `d` when a hard separator lies between it and the previous word, and
by exactly 1 otherwise; a run of consecutive separators collapses into
that single advance. -/
def expectedFrom (d : Nat) : Nat → List (List Token × Token) → List (Nat × Token)
  | _, [] => []
  | p, (mid, w) :: gs =>
    (p + (if hasHard mid then d else 1), w) ::
      expectedFrom d (p + (if hasHard mid then d else 1)) gs

/-- Leading separators are consumed by the `skip_while` of
`process_tokens`. -/
theorem dropWhile_lead (lead : List Token) (w1 : Token) (rest : List Token)
    (hlead : ∀ t ∈ lead, t.is_separator = true) (hw : w1.kind = .word) :
    (lead ++ w1 :: rest).dropWhile Token.is_separator = w1 :: rest := by
  induction lead with
  | nil =>
    simp only [List.nil_append, List.dropWhile_cons]
    simp [Token.is_separator, hw]
  | cons t l ih =>
    simp only [List.cons_append, List.dropWhile_cons,
      hlead t (List.mem_cons_self t l), if_true]
    exact ih fun u hu => hlead u (List.mem_cons_of_mem t hu)

/-- Scanning a separator run emits no word and advances the state by
`midFold` while keeping the offset. -/
theorem scan_sep_run (d : Nat) (mid : List Token) :
    ∀ (off : Nat) (k : TokenKind) (rest : List Token),
    (∀ t ∈ mid, t.is_separator = true) →
    (processScan d (off, some k) (mid ++ rest)).filter (fun p => p.2.is_word) =
      (processScan d (off, some (midFold k mid)) rest).filter (fun p => p.2.is_word) := by
  induction mid with
  | nil => intro off k rest _; rfl
  | cons t mid ih =>
    intro off k rest h
    have ht : t.is_separator = true := h t (List.mem_cons_self t mid)
    have hrest : ∀ u ∈ mid, u.is_separator = true :=
      fun u hu => h u (List.mem_cons_of_mem t hu)
    cases hkind : t.kind with
    | word => rw [Token.is_separator, hkind] at ht; simp at ht
    | stopWord => rw [Token.is_separator, hkind] at ht; simp at ht
    | unknown => rw [Token.is_separator, hkind] at ht; simp at ht
    | separator s =>
      cases s with
      | hard =>
        rw [List.cons_append, processScan]
        have hstep : processStep d (off, some k) t =
            ((off, some (.separator .hard)), (off, t)) := by
          simp only [processStep]
          rw [if_neg (by simp [hkind]), if_pos (by rw [hkind])]
          rw [hkind]
        rw [hstep]
        simp only [List.filter_cons]
        have hnw : (off, t).2.is_word = false := by simp [Token.is_word, hkind]
        rw [hnw]
        simp only [Bool.false_eq_true, if_false]
        rw [ih off (.separator .hard) rest hrest]
        have hmf : midFold k (t :: mid) = midFold (.separator .hard) mid := by
          simp [midFold, midStep, hkind]
        rw [hmf]
      | soft =>
        rw [List.cons_append, processScan]
        by_cases hk : k = TokenKind.separator SeparatorKind.hard
        · have hstep : processStep d (off, some k) t =
              ((off, some k), (off, { t with kind := .unknown })) := by
            simp only [processStep]
            rw [if_neg (by simp [hkind]), if_neg (by simp [hkind]),
              if_neg (by simp [hk])]
          rw [hstep]
          simp only [List.filter_cons]
          have hnw : (off, { t with kind := TokenKind.unknown }).2.is_word = false := by
            simp [Token.is_word]
          rw [hnw]
          simp only [Bool.false_eq_true, if_false]
          rw [ih off k rest hrest]
          have hmf : midFold k (t :: mid) = midFold k mid := by
            simp [midFold, midStep, hkind, hk]
          rw [hmf]
        · have hstep : processStep d (off, some k) t =
              ((off, some (.separator .soft)), (off, t)) := by
            simp only [processStep]
            rw [if_neg (by simp [hkind]), if_neg (by simp [hkind]),
              if_pos ⟨by rw [hkind], by simpa using hk⟩]
            rw [hkind]
          rw [hstep]
          simp only [List.filter_cons]
          have hnw : (off, t).2.is_word = false := by simp [Token.is_word, hkind]
          rw [hnw]
          simp only [Bool.false_eq_true, if_false]
          rw [ih off (.separator .soft) rest hrest]
          have hmf : midFold k (t :: mid) = midFold (.separator .soft) mid := by
            simp [midFold, midStep, hkind, hk]
          rw [hmf]

/-- After a separator run the tracked kind is the hard separator exactly
when the run contains a hard separator or the starting kind already was
it. -/
theorem midFold_hard (mid : List Token) :
    ∀ k : TokenKind, (midFold k mid = .separator .hard) ↔
      (k = .separator .hard ∨ hasHard mid = true) := by
  induction mid with
  | nil => intro k; simp [midFold, hasHard]
  | cons t mid ih =>
    intro k
    have hfold : midFold k (t :: mid) = midFold (midStep k t) mid := rfl
    rw [hfold, ih (midStep k t)]
    have hany : hasHard (t :: mid) =
        (decide (t.kind = .separator .hard) || hasHard mid) := by
      simp [hasHard]
    rw [hany]
    by_cases ht : t.kind = TokenKind.separator SeparatorKind.hard
    · simp [midStep, ht]
    · by_cases hsoft : t.kind = TokenKind.separator SeparatorKind.soft ∧
          k ≠ TokenKind.separator SeparatorKind.hard
      · have hms : midStep k t = .separator .soft := by simp [midStep, ht, hsoft]
        rw [hms]
        simp [ht, hsoft.2]
      · have hms : midStep k t = k := by
          unfold midStep
          rw [if_neg ht, if_neg hsoft]
        rw [hms]
        simp [ht]

/-- Scanning an emittable word advances the offset by `d` past a hard
separator and by 1 otherwise, records the word kind, and emits the word
at the new offset. -/
theorem processStep_word (d off : Nat) (k : TokenKind) (w : Token)
    (hw : w.kind = .word) (hl : w.lemmaText ≠ []) :
    processStep d (off, some k) w =
      ((off + (if k = TokenKind.separator SeparatorKind.hard then d else 1),
        some TokenKind.word),
       (off + (if k = TokenKind.separator SeparatorKind.hard then d else 1), w)) := by
  have hcond : (w.kind = TokenKind.word ∨ w.kind = TokenKind.stopWord) ∧
      w.lemmaText ≠ [] := ⟨Or.inl hw, hl⟩
  simp only [processStep]
  rw [if_pos hcond, hw]
  cases k with
  | word => simp
  | stopWord => simp
  | unknown => simp
  | separator s =>
    cases s with
    | hard => simp
    | soft => simp

/-- The very first emittable word is emitted at the start offset. -/
theorem processStep_first (d off : Nat) (w : Token)
    (hw : w.kind = .word) (hl : w.lemmaText ≠ []) :
    processStep d (off, none) w = ((off, some TokenKind.word), (off, w)) := by
  have hcond : (w.kind = TokenKind.word ∨ w.kind = TokenKind.stopWord) ∧
      w.lemmaText ≠ [] := ⟨Or.inl hw, hl⟩
  simp only [processStep]
  rw [if_pos hcond, hw]
  simp

/-- Scanning the word groups from a word state yields exactly the
predicted positions. -/
theorem scan_groups (d : Nat) (gs : List (List Token × Token)) :
    ∀ p : Nat,
    (∀ g ∈ gs, (∀ t ∈ g.1, t.is_separator = true) ∧
      g.2.kind = .word ∧ g.2.lemmaText ≠ []) →
    (processScan d (p, some TokenKind.word) ((gs.map groupTokens).flatten)).filter
        (fun x => x.2.is_word) =
      expectedFrom d p gs := by
  induction gs with
  | nil => intro p _; rfl
  | cons g gs ih =>
    intro p h
    obtain ⟨mid, w⟩ := g
    obtain ⟨hmid, hw, hl⟩ := h _ (List.mem_cons_self _ gs)
    have hw' : w.kind = TokenKind.word := hw
    have hl' : w.lemmaText ≠ [] := hl
    have hmid' : ∀ t ∈ mid, t.is_separator = true := hmid
    have hj : ((((mid, w) :: gs).map groupTokens).flatten) =
        mid ++ (w :: (gs.map groupTokens).flatten) := by
      simp [groupTokens]
    rw [hj, scan_sep_run d mid p TokenKind.word _ hmid', processScan,
      processStep_word d p _ w hw' hl']
    have hiff : (midFold TokenKind.word mid = TokenKind.separator SeparatorKind.hard) ↔
        (hasHard mid = true) := by
      rw [midFold_hard]
      simp
    have hadv : (if midFold TokenKind.word mid = TokenKind.separator SeparatorKind.hard
          then d else 1) =
        (if hasHard mid then d else 1) := by
      by_cases hh : hasHard mid = true
      · rw [if_pos (hiff.mpr hh), if_pos hh]
      · rw [if_neg (fun hc => hh (hiff.mp hc)), if_neg (by simp_all)]
    rw [hadv]
    simp only [List.filter_cons]
    have hyes : (p + (if hasHard mid then d else 1), w).2.is_word = true := by
      simp [Token.is_word, hw']
    rw [hyes]
    simp only [if_true]
    rw [ih _ (fun g hg => h g (List.mem_cons_of_mem _ hg))]
    rfl

/-- C1: on a stream of leading separators, a first word, and word groups
(each a run of separators followed by a word), `process_tokens` emits the
first word at the caller-provided offset with the leading separators
discarded, and each subsequent word at a position exactly `d` past the
previous word when a hard separator lies between them and exactly 1 past
it when only soft separators (or none) lie between them, any run of
consecutive separators collapsing into that single advance. -/
theorem process_tokens_positions (d start : Nat) (lead : List Token)
    (w1 : Token) (gs : List (List Token × Token))
    (hlead : ∀ t ∈ lead, t.is_separator = true)
    (hw1 : w1.kind = .word ∧ w1.lemmaText ≠ [])
    (hgs : ∀ g ∈ gs, (∀ t ∈ g.1, t.is_separator = true) ∧
      g.2.kind = .word ∧ g.2.lemmaText ≠ []) :
    process_tokens d start (buildStream lead w1 gs) =
      (start, w1) :: expectedFrom d start gs := by
  unfold process_tokens buildStream
  rw [dropWhile_lead lead w1 _ hlead hw1.1, processScan,
    processStep_first d start w1 hw1.1 hw1.2]
  simp only [List.filter_cons]
  have hyes : (start, w1).2.is_word = true := by simp [Token.is_word, hw1.1]
  rw [hyes]
  simp only [if_true]
  rw [scan_groups d gs start hgs]

/-- C1 witness: the theorem applied to the stream
`soft w1 hard soft w2 soft w3` starting at offset 5: the leading soft
separator is discarded, `w1` sits at 5, `w2` at `5 + 8` past the collapsed
hard-soft run, `w3` at one past `w2`. -/
theorem process_tokens_positions_witness :
    process_tokens 8 5 (buildStream
      [⟨.separator .soft, [' ']⟩]
      ⟨.word, ['a']⟩
      [([⟨.separator .hard, ['.']⟩, ⟨.separator .soft, [' ']⟩], ⟨.word, ['b']⟩),
       ([⟨.separator .soft, [' ']⟩], ⟨.word, ['c']⟩)]) =
      [(5, ⟨.word, ['a']⟩), (13, ⟨.word, ['b']⟩), (14, ⟨.word, ['c']⟩)] := by
  have h := process_tokens_positions 8 5
    [⟨.separator .soft, [' ']⟩]
    ⟨.word, ['a']⟩
    [([⟨.separator .hard, ['.']⟩, ⟨.separator .soft, [' ']⟩], ⟨.word, ['b']⟩),
     ([⟨.separator .soft, [' ']⟩], ⟨.word, ['c']⟩)]
    (by decide) (by decide) (by decide)
  rw [h]
  rfl

/-! ## Extraction cache (milli/src/update/index_documents/cache.rs) -/

/-- Embedding of `DelAddRoaringBitmap`: optional deletion and addition
bitmaps; roaring bitmaps are modelled as finite sets of naturals (`u32`
docids in the source). -/
structure DelAddRoaringBitmap where
  del : Option (Finset Nat)
  add : Option (Finset Nat)
deriving DecidableEq

/-- Embedding of `DelAddRoaringBitmap::new_del`. -/
def DelAddRoaringBitmap.new_del (n : Nat) : DelAddRoaringBitmap :=
  ⟨some {n}, none⟩

/-- Embedding of `DelAddRoaringBitmap::new_add`. -/
def DelAddRoaringBitmap.new_add (n : Nat) : DelAddRoaringBitmap :=
  ⟨none, some {n}⟩

/-- Embedding of `DelAddRoaringBitmap::new_del_add`. -/
def DelAddRoaringBitmap.new_del_add (n : Nat) : DelAddRoaringBitmap :=
  ⟨some {n}, some {n}⟩

/-- Embedding of `bitmap.get_or_insert_with(RoaringBitmap::new).insert(n)`. -/
def insertOpt (o : Option (Finset Nat)) (n : Nat) : Option (Finset Nat) :=
  some (insert n (o.getD ∅))

/-- The state of a `SorterCacheDelAddCboRoaringBitmap`: the lru cache as a
list of entries in most-recently-used-first order, and the grenad sorter
as the list of entries already flushed to it, in flush order.  Keys are
byte strings (`List Nat`); the value flushed by `write_entry_to_sorter` is
kept at the bitmap level (its byte serialization through `KvWriterDelAdd`
and `CboRoaringBitmapCodec` is external to the claim).  The redis counter
of the source is telemetry and not modelled. -/
structure SorterCache where
  cache : List (List Nat × DelAddRoaringBitmap)
  sorter : List (List Nat × DelAddRoaringBitmap)

/-- Model of `LruCache::get_mut`: find the entry of `key`, returning its
value and the list without it (the caller re-inserts the updated entry at
the most-recently-used position, matching the promotion the lru crate
performs). -/
def lruTake (key : List Nat) :
    List (List Nat × DelAddRoaringBitmap) →
      Option (DelAddRoaringBitmap × List (List Nat × DelAddRoaringBitmap))
  | [] => none
  | (k, v) :: rest =>
    if k = key then some (v, rest)
    else
      match lruTake key rest with
      | some (v', rest') => some (v', (k, v) :: rest')
      | none => none

/-- Model of `LruCache::push` for a key absent from the cache: insert the
entry at the most-recently-used position; when the capacity is exceeded
evict and return the least-recently-used entry. -/
def lruPush (cap : Nat) (key : List Nat) (v : DelAddRoaringBitmap)
    (cache : List (List Nat × DelAddRoaringBitmap)) :
    List (List Nat × DelAddRoaringBitmap) ×
      Option (List Nat × DelAddRoaringBitmap) :=
  let cache' := (key, v) :: cache
  if cap < cache'.length then (cache'.dropLast, cache'.getLast?)
  else (cache', none)

/-- Embedding of `write_entry_to_sorter`: serialize the `Deletion` and/or
`Addition` branches of the entry and insert it into the sorter; an entry
with neither branch writes nothing. -/
def write_entry_to_sorter (st : SorterCache) (key : List Nat)
    (deladd : DelAddRoaringBitmap) : SorterCache :=
  match deladd with
  | ⟨none, none⟩ => st
  | e => { st with sorter := st.sorter ++ [(key, e)] }

/-- Embedding of `insert_del_u32`: update the cached entry in place when
the key is cached, otherwise push a new `new_del` entry, flushing any
evicted entry to the sorter. -/
def insert_del_u32 (cap : Nat) (st : SorterCache) (key : List Nat) (n : Nat) :
    SorterCache :=
  match lruTake key st.cache with
  | some (⟨del, add⟩, rest) =>
      { st with cache := (key, ⟨insertOpt del n, add⟩) :: rest }
  | none =>
      match lruPush cap key (DelAddRoaringBitmap.new_del n) st.cache with
      | (cache', some (ekey, edeladd)) =>
          write_entry_to_sorter { st with cache := cache' } ekey edeladd
      | (cache', none) => { st with cache := cache' }

/-- Embedding of `insert_add_u32`. -/
def insert_add_u32 (cap : Nat) (st : SorterCache) (key : List Nat) (n : Nat) :
    SorterCache :=
  match lruTake key st.cache with
  | some (⟨del, add⟩, rest) =>
      { st with cache := (key, ⟨del, insertOpt add n⟩) :: rest }
  | none =>
      match lruPush cap key (DelAddRoaringBitmap.new_add n) st.cache with
      | (cache', some (ekey, edeladd)) =>
          write_entry_to_sorter { st with cache := cache' } ekey edeladd
      | (cache', none) => { st with cache := cache' }

/-- Embedding of `insert_del_add_u32`. -/
def insert_del_add_u32 (cap : Nat) (st : SorterCache) (key : List Nat) (n : Nat) :
    SorterCache :=
  match lruTake key st.cache with
  | some (⟨del, add⟩, rest) =>
      { st with cache := (key, ⟨insertOpt del n, insertOpt add n⟩) :: rest }
  | none =>
      match lruPush cap key (DelAddRoaringBitmap.new_del_add n) st.cache with
      | (cache', some (ekey, edeladd)) =>
          write_entry_to_sorter { st with cache := cache' } ekey edeladd
      | (cache', none) => { st with cache := cache' }

/-- Embedding of `into_sorter`: flush every entry still in the cache to
the sorter (the lru iterator runs from most to least recently used) and
return the sorter. -/
def into_sorter (st : SorterCache) : List (List Nat × DelAddRoaringBitmap) :=
  (st.cache.foldl (fun s e => write_entry_to_sorter s e.1 e.2)
    { cache := [], sorter := st.sorter }).sorter

/-- One insert call of the claim's operation sequence. -/
inductive CacheOp
  | insDel (key : List Nat) (n : Nat)
  | insAdd (key : List Nat) (n : Nat)
  | insDelAdd (key : List Nat) (n : Nat)
deriving DecidableEq

/-- Dispatch one operation to the corresponding insert function. -/
def applyOp (cap : Nat) (st : SorterCache) : CacheOp → SorterCache
  | .insDel key n => insert_del_u32 cap st key n
  | .insAdd key n => insert_add_u32 cap st key n
  | .insDelAdd key n => insert_del_add_u32 cap st key n

/-- Run a sequence of insert calls on a fresh cache. -/
def runOps (cap : Nat) (ops : List CacheOp) : SorterCache :=
  ops.foldl (applyOp cap) { cache := [], sorter := [] }

/-- The docids inserted on the deletion side under a key by a sequence of
operations. -/
def delInserted (ops : List CacheOp) (key : List Nat) : Finset Nat :=
  (ops.filterMap fun op =>
    match op with
    | .insDel k n => if k = key then some n else none
    | .insDelAdd k n => if k = key then some n else none
    | _ => none).toFinset

/-- The docids inserted on the addition side under a key. -/
def addInserted (ops : List CacheOp) (key : List Nat) : Finset Nat :=
  (ops.filterMap fun op =>
    match op with
    | .insAdd k n => if k = key then some n else none
    | .insDelAdd k n => if k = key then some n else none
    | _ => none).toFinset

/-- The union of the deletion bitmaps stored under a key across a list of
entries. -/
def entriesDel : List (List Nat × DelAddRoaringBitmap) → List Nat → Finset Nat
  | [], _ => ∅
  | e :: rest, key =>
    (if e.1 = key then e.2.del.getD ∅ else ∅) ∪ entriesDel rest key

/-- The union of the addition bitmaps stored under a key. -/
def entriesAdd : List (List Nat × DelAddRoaringBitmap) → List Nat → Finset Nat
  | [], _ => ∅
  | e :: rest, key =>
    (if e.1 = key then e.2.add.getD ∅ else ∅) ∪ entriesAdd rest key

/-- The per-operation contribution to the deletion side of a key. -/
def opDel (op : CacheOp) (key : List Nat) : Finset Nat :=
  match op with
  | .insDel k n => if k = key then {n} else ∅
  | .insDelAdd k n => if k = key then {n} else ∅
  | _ => ∅

/-- The per-operation contribution to the addition side of a key. -/
def opAdd (op : CacheOp) (key : List Nat) : Finset Nat :=
  match op with
  | .insAdd k n => if k = key then {n} else ∅
  | .insDelAdd k n => if k = key then {n} else ∅
  | _ => ∅

/-- Appending entry lists unions their deletion contributions. -/
theorem entriesDel_append (l₁ l₂ : List (List Nat × DelAddRoaringBitmap))
    (key : List Nat) :
    entriesDel (l₁ ++ l₂) key = entriesDel l₁ key ∪ entriesDel l₂ key := by
  induction l₁ with
  | nil => simp [entriesDel]
  | cons e l ih =>
    rw [List.cons_append, entriesDel, entriesDel, ih, Finset.union_assoc]

/-- Appending entry lists unions their addition contributions. -/
theorem entriesAdd_append (l₁ l₂ : List (List Nat × DelAddRoaringBitmap))
    (key : List Nat) :
    entriesAdd (l₁ ++ l₂) key = entriesAdd l₁ key ∪ entriesAdd l₂ key := by
  induction l₁ with
  | nil => simp [entriesAdd]
  | cons e l ih =>
    rw [List.cons_append, entriesAdd, entriesAdd, ih, Finset.union_assoc]

/-- `write_entry_to_sorter` never touches the cache. -/
theorem write_entry_cache (st : SorterCache) (k : List Nat)
    (v : DelAddRoaringBitmap) :
    (write_entry_to_sorter st k v).cache = st.cache := by
  obtain ⟨dl, ad⟩ := v
  cases dl <;> cases ad <;> rfl

/-- The deletion contribution flushed by `write_entry_to_sorter`. -/
theorem write_entry_sorter_del (st : SorterCache) (k : List Nat)
    (v : DelAddRoaringBitmap) (key : List Nat) :
    entriesDel (write_entry_to_sorter st k v).sorter key =
      entriesDel st.sorter key ∪ (if k = key then v.del.getD ∅ else ∅) := by
  obtain ⟨dl, ad⟩ := v
  cases dl with
  | none =>
    cases ad with
    | none => simp [write_entry_to_sorter, entriesDel]
    | some a =>
      rw [show write_entry_to_sorter st k ⟨none, some a⟩ =
          { st with sorter := st.sorter ++ [(k, ⟨none, some a⟩)] } from rfl,
        entriesDel_append]
      simp [entriesDel]
  | some dlv =>
    cases ad with
    | none =>
      rw [show write_entry_to_sorter st k ⟨some dlv, none⟩ =
          { st with sorter := st.sorter ++ [(k, ⟨some dlv, none⟩)] } from rfl,
        entriesDel_append]
      simp [entriesDel]
    | some a =>
      rw [show write_entry_to_sorter st k ⟨some dlv, some a⟩ =
          { st with sorter := st.sorter ++ [(k, ⟨some dlv, some a⟩)] } from rfl,
        entriesDel_append]
      simp [entriesDel]

/-- The addition contribution flushed by `write_entry_to_sorter`. -/
theorem write_entry_sorter_add (st : SorterCache) (k : List Nat)
    (v : DelAddRoaringBitmap) (key : List Nat) :
    entriesAdd (write_entry_to_sorter st k v).sorter key =
      entriesAdd st.sorter key ∪ (if k = key then v.add.getD ∅ else ∅) := by
  obtain ⟨dl, ad⟩ := v
  cases dl with
  | none =>
    cases ad with
    | none => simp [write_entry_to_sorter, entriesAdd]
    | some a =>
      rw [show write_entry_to_sorter st k ⟨none, some a⟩ =
          { st with sorter := st.sorter ++ [(k, ⟨none, some a⟩)] } from rfl,
        entriesAdd_append]
      simp [entriesAdd]
  | some dlv =>
    cases ad with
    | none =>
      rw [show write_entry_to_sorter st k ⟨some dlv, none⟩ =
          { st with sorter := st.sorter ++ [(k, ⟨some dlv, none⟩)] } from rfl,
        entriesAdd_append]
      simp [entriesAdd]
    | some a =>
      rw [show write_entry_to_sorter st k ⟨some dlv, some a⟩ =
          { st with sorter := st.sorter ++ [(k, ⟨some dlv, some a⟩)] } from rfl,
        entriesAdd_append]
      simp [entriesAdd]

/-- Taking the cached entry of a key splits off its deletion
contribution. -/
theorem lruTake_some_del (k : List Nat)
    (cache : List (List Nat × DelAddRoaringBitmap))
    (v : DelAddRoaringBitmap) (rest : List (List Nat × DelAddRoaringBitmap))
    (h : lruTake k cache = some (v, rest)) (key : List Nat) :
    entriesDel cache key =
      (if k = key then v.del.getD ∅ else ∅) ∪ entriesDel rest key := by
  induction cache generalizing rest with
  | nil => simp [lruTake] at h
  | cons e cache ih =>
    obtain ⟨k0, v0⟩ := e
    rw [lruTake] at h
    by_cases hk0 : k0 = k
    · rw [if_pos hk0] at h
      simp only [Option.some.injEq, Prod.mk.injEq] at h
      obtain ⟨hv, hrest⟩ := h
      subst hv hrest hk0
      rw [entriesDel]
    · rw [if_neg hk0] at h
      cases htake : lruTake k cache with
      | none => rw [htake] at h; simp at h
      | some pr =>
        obtain ⟨v', rest'⟩ := pr
        rw [htake] at h
        simp only [Option.some.injEq, Prod.mk.injEq] at h
        obtain ⟨hv, hrest⟩ := h
        subst hv hrest
        rw [entriesDel, ih rest' htake, entriesDel]
        ext x
        simp only [Finset.mem_union]
        tauto

/-- Taking the cached entry of a key splits off its addition
contribution. -/
theorem lruTake_some_add (k : List Nat)
    (cache : List (List Nat × DelAddRoaringBitmap))
    (v : DelAddRoaringBitmap) (rest : List (List Nat × DelAddRoaringBitmap))
    (h : lruTake k cache = some (v, rest)) (key : List Nat) :
    entriesAdd cache key =
      (if k = key then v.add.getD ∅ else ∅) ∪ entriesAdd rest key := by
  induction cache generalizing rest with
  | nil => simp [lruTake] at h
  | cons e cache ih =>
    obtain ⟨k0, v0⟩ := e
    rw [lruTake] at h
    by_cases hk0 : k0 = k
    · rw [if_pos hk0] at h
      simp only [Option.some.injEq, Prod.mk.injEq] at h
      obtain ⟨hv, hrest⟩ := h
      subst hv hrest hk0
      rw [entriesAdd]
    · rw [if_neg hk0] at h
      cases htake : lruTake k cache with
      | none => rw [htake] at h; simp at h
      | some pr =>
        obtain ⟨v', rest'⟩ := pr
        rw [htake] at h
        simp only [Option.some.injEq, Prod.mk.injEq] at h
        obtain ⟨hv, hrest⟩ := h
        subst hv hrest
        rw [entriesAdd, ih rest' htake, entriesAdd]
        ext x
        simp only [Finset.mem_union]
        tauto

/-- A non-empty entry list splits as its front part plus its last
entry (deletion side). -/
theorem entriesDel_dropLast (l : List (List Nat × DelAddRoaringBitmap))
    (h : l ≠ []) (key : List Nat) :
    entriesDel l key =
      entriesDel l.dropLast key ∪
        (if (l.getLast h).1 = key then (l.getLast h).2.del.getD ∅ else ∅) := by
  conv_lhs => rw [← List.dropLast_append_getLast h]
  rw [entriesDel_append]
  simp [entriesDel]

/-- A non-empty entry list splits as its front part plus its last
entry (addition side). -/
theorem entriesAdd_dropLast (l : List (List Nat × DelAddRoaringBitmap))
    (h : l ≠ []) (key : List Nat) :
    entriesAdd l key =
      entriesAdd l.dropLast key ∪
        (if (l.getLast h).1 = key then (l.getLast h).2.add.getD ∅ else ∅) := by
  conv_lhs => rw [← List.dropLast_append_getLast h]
  rw [entriesAdd_append]
  simp [entriesAdd]

/-- The cache-miss path shared by the three insert operations: push the
new entry and flush any evicted entry to the sorter. -/
def pushMiss (cap : Nat) (st : SorterCache) (k : List Nat)
    (v : DelAddRoaringBitmap) : SorterCache :=
  match lruPush cap k v st.cache with
  | (cache', some (ekey, edeladd)) =>
      write_entry_to_sorter { st with cache := cache' } ekey edeladd
  | (cache', none) => { st with cache := cache' }

/-- `insert_del_u32` on a cached key updates the entry in place. -/
theorem insert_del_hit (cap : Nat) (st : SorterCache) (k : List Nat) (n : Nat)
    (v : DelAddRoaringBitmap) (rest : List (List Nat × DelAddRoaringBitmap))
    (h : lruTake k st.cache = some (v, rest)) :
    insert_del_u32 cap st k n =
      { st with cache := (k, ⟨insertOpt v.del n, v.add⟩) :: rest } := by
  obtain ⟨dl, ad⟩ := v
  unfold insert_del_u32
  rw [h]

/-- `insert_del_u32` on an absent key runs the push path. -/
theorem insert_del_miss (cap : Nat) (st : SorterCache) (k : List Nat) (n : Nat)
    (h : lruTake k st.cache = none) :
    insert_del_u32 cap st k n = pushMiss cap st k (DelAddRoaringBitmap.new_del n) := by
  unfold insert_del_u32 pushMiss
  rw [h]

/-- `insert_add_u32` on a cached key updates the entry in place. -/
theorem insert_add_hit (cap : Nat) (st : SorterCache) (k : List Nat) (n : Nat)
    (v : DelAddRoaringBitmap) (rest : List (List Nat × DelAddRoaringBitmap))
    (h : lruTake k st.cache = some (v, rest)) :
    insert_add_u32 cap st k n =
      { st with cache := (k, ⟨v.del, insertOpt v.add n⟩) :: rest } := by
  obtain ⟨dl, ad⟩ := v
  unfold insert_add_u32
  rw [h]

/-- `insert_add_u32` on an absent key runs the push path. -/
theorem insert_add_miss (cap : Nat) (st : SorterCache) (k : List Nat) (n : Nat)
    (h : lruTake k st.cache = none) :
    insert_add_u32 cap st k n = pushMiss cap st k (DelAddRoaringBitmap.new_add n) := by
  unfold insert_add_u32 pushMiss
  rw [h]

/-- `insert_del_add_u32` on a cached key updates the entry in place. -/
theorem insert_del_add_hit (cap : Nat) (st : SorterCache) (k : List Nat) (n : Nat)
    (v : DelAddRoaringBitmap) (rest : List (List Nat × DelAddRoaringBitmap))
    (h : lruTake k st.cache = some (v, rest)) :
    insert_del_add_u32 cap st k n =
      { st with cache := (k, ⟨insertOpt v.del n, insertOpt v.add n⟩) :: rest } := by
  obtain ⟨dl, ad⟩ := v
  unfold insert_del_add_u32
  rw [h]

/-- `insert_del_add_u32` on an absent key runs the push path. -/
theorem insert_del_add_miss (cap : Nat) (st : SorterCache) (k : List Nat)
    (n : Nat) (h : lruTake k st.cache = none) :
    insert_del_add_u32 cap st k n =
      pushMiss cap st k (DelAddRoaringBitmap.new_del_add n) := by
  unfold insert_del_add_u32 pushMiss
  rw [h]

/-- The push path adds exactly the new entry's deletion contribution to
the combined sorter-and-cache content of each key. -/
theorem pushMiss_del (cap : Nat) (st : SorterCache) (k : List Nat)
    (v : DelAddRoaringBitmap) (key : List Nat) :
    entriesDel (pushMiss cap st k v).sorter key ∪
      entriesDel (pushMiss cap st k v).cache key =
      (entriesDel st.sorter key ∪ entriesDel st.cache key) ∪
        (if k = key then v.del.getD ∅ else ∅) := by
  have hcons : entriesDel ((k, v) :: st.cache) key =
      (if k = key then v.del.getD ∅ else ∅) ∪ entriesDel st.cache key := rfl
  unfold pushMiss lruPush
  by_cases hlen : cap < ((k, v) :: st.cache).length
  · rw [if_pos hlen,
      List.getLast?_eq_getLast ((k, v) :: st.cache) (List.cons_ne_nil _ _)]
    simp only
    rw [write_entry_sorter_del, write_entry_cache]
    simp only
    have hsplit := entriesDel_dropLast ((k, v) :: st.cache) (List.cons_ne_nil _ _) key
    have hkeyeq := hsplit.symm.trans hcons
    ext x
    have hx := Finset.ext_iff.mp hkeyeq x
    simp only [Finset.mem_union] at hx ⊢
    tauto
  · rw [if_neg hlen]
    simp only
    rw [hcons]
    ext x
    simp only [Finset.mem_union]
    tauto

/-- The push path adds exactly the new entry's addition contribution. -/
theorem pushMiss_add (cap : Nat) (st : SorterCache) (k : List Nat)
    (v : DelAddRoaringBitmap) (key : List Nat) :
    entriesAdd (pushMiss cap st k v).sorter key ∪
      entriesAdd (pushMiss cap st k v).cache key =
      (entriesAdd st.sorter key ∪ entriesAdd st.cache key) ∪
        (if k = key then v.add.getD ∅ else ∅) := by
  have hcons : entriesAdd ((k, v) :: st.cache) key =
      (if k = key then v.add.getD ∅ else ∅) ∪ entriesAdd st.cache key := rfl
  unfold pushMiss lruPush
  by_cases hlen : cap < ((k, v) :: st.cache).length
  · rw [if_pos hlen,
      List.getLast?_eq_getLast ((k, v) :: st.cache) (List.cons_ne_nil _ _)]
    simp only
    rw [write_entry_sorter_add, write_entry_cache]
    simp only
    have hsplit := entriesAdd_dropLast ((k, v) :: st.cache) (List.cons_ne_nil _ _) key
    have hkeyeq := hsplit.symm.trans hcons
    ext x
    have hx := Finset.ext_iff.mp hkeyeq x
    simp only [Finset.mem_union] at hx ⊢
    tauto
  · rw [if_neg hlen]
    simp only
    rw [hcons]
    ext x
    simp only [Finset.mem_union]
    tauto

/-- One insert call adds exactly its deletion contribution to the
combined sorter-and-cache content of every key. -/
theorem applyOp_del (cap : Nat) (st : SorterCache) (op : CacheOp)
    (key : List Nat) :
    entriesDel (applyOp cap st op).sorter key ∪
      entriesDel (applyOp cap st op).cache key =
      (entriesDel st.sorter key ∪ entriesDel st.cache key) ∪ opDel op key := by
  cases op with
  | insDel k n =>
    show entriesDel (insert_del_u32 cap st k n).sorter key ∪
      entriesDel (insert_del_u32 cap st k n).cache key = _
    cases htake : lruTake k st.cache with
    | some pr =>
      obtain ⟨v, rest⟩ := pr
      rw [insert_del_hit cap st k n v rest htake]
      simp only
      rw [entriesDel, lruTake_some_del k st.cache v rest htake key]
      by_cases hk : k = key
      · ext x
        simp only [hk, if_true, insertOpt, Option.getD_some, opDel,
          Finset.mem_union, Finset.mem_insert, Finset.mem_singleton]
        tauto
      · ext x
        simp only [hk, if_false, opDel, Finset.mem_union,
          Finset.not_mem_empty]
        tauto
    | none =>
      rw [insert_del_miss cap st k n htake, pushMiss_del]
      by_cases hk : k = key <;>
        simp [hk, DelAddRoaringBitmap.new_del, opDel]
  | insAdd k n =>
    show entriesDel (insert_add_u32 cap st k n).sorter key ∪
      entriesDel (insert_add_u32 cap st k n).cache key = _
    cases htake : lruTake k st.cache with
    | some pr =>
      obtain ⟨v, rest⟩ := pr
      rw [insert_add_hit cap st k n v rest htake]
      simp only
      rw [entriesDel, lruTake_some_del k st.cache v rest htake key]
      ext x
      simp only [opDel, Finset.mem_union, Finset.not_mem_empty]
      tauto
    | none =>
      rw [insert_add_miss cap st k n htake, pushMiss_del]
      by_cases hk : k = key <;>
        simp [hk, DelAddRoaringBitmap.new_add, opDel]
  | insDelAdd k n =>
    show entriesDel (insert_del_add_u32 cap st k n).sorter key ∪
      entriesDel (insert_del_add_u32 cap st k n).cache key = _
    cases htake : lruTake k st.cache with
    | some pr =>
      obtain ⟨v, rest⟩ := pr
      rw [insert_del_add_hit cap st k n v rest htake]
      simp only
      rw [entriesDel, lruTake_some_del k st.cache v rest htake key]
      by_cases hk : k = key
      · ext x
        simp only [hk, if_true, insertOpt, Option.getD_some, opDel,
          Finset.mem_union, Finset.mem_insert, Finset.mem_singleton]
        tauto
      · ext x
        simp only [hk, if_false, opDel, Finset.mem_union,
          Finset.not_mem_empty]
        tauto
    | none =>
      rw [insert_del_add_miss cap st k n htake, pushMiss_del]
      by_cases hk : k = key <;>
        simp [hk, DelAddRoaringBitmap.new_del_add, opDel]

/-- One insert call adds exactly its addition contribution to the
combined sorter-and-cache content of every key. -/
theorem applyOp_add (cap : Nat) (st : SorterCache) (op : CacheOp)
    (key : List Nat) :
    entriesAdd (applyOp cap st op).sorter key ∪
      entriesAdd (applyOp cap st op).cache key =
      (entriesAdd st.sorter key ∪ entriesAdd st.cache key) ∪ opAdd op key := by
  cases op with
  | insDel k n =>
    show entriesAdd (insert_del_u32 cap st k n).sorter key ∪
      entriesAdd (insert_del_u32 cap st k n).cache key = _
    cases htake : lruTake k st.cache with
    | some pr =>
      obtain ⟨v, rest⟩ := pr
      rw [insert_del_hit cap st k n v rest htake]
      simp only
      rw [entriesAdd, lruTake_some_add k st.cache v rest htake key]
      ext x
      simp only [opAdd, Finset.mem_union, Finset.not_mem_empty]
      tauto
    | none =>
      rw [insert_del_miss cap st k n htake, pushMiss_add]
      by_cases hk : k = key <;>
        simp [hk, DelAddRoaringBitmap.new_del, opAdd]
  | insAdd k n =>
    show entriesAdd (insert_add_u32 cap st k n).sorter key ∪
      entriesAdd (insert_add_u32 cap st k n).cache key = _
    cases htake : lruTake k st.cache with
    | some pr =>
      obtain ⟨v, rest⟩ := pr
      rw [insert_add_hit cap st k n v rest htake]
      simp only
      rw [entriesAdd, lruTake_some_add k st.cache v rest htake key]
      by_cases hk : k = key
      · ext x
        simp only [hk, if_true, insertOpt, Option.getD_some, opAdd,
          Finset.mem_union, Finset.mem_insert, Finset.mem_singleton]
        tauto
      · ext x
        simp only [hk, if_false, opAdd, Finset.mem_union,
          Finset.not_mem_empty]
        tauto
    | none =>
      rw [insert_add_miss cap st k n htake, pushMiss_add]
      by_cases hk : k = key <;>
        simp [hk, DelAddRoaringBitmap.new_add, opAdd]
  | insDelAdd k n =>
    show entriesAdd (insert_del_add_u32 cap st k n).sorter key ∪
      entriesAdd (insert_del_add_u32 cap st k n).cache key = _
    cases htake : lruTake k st.cache with
    | some pr =>
      obtain ⟨v, rest⟩ := pr
      rw [insert_del_add_hit cap st k n v rest htake]
      simp only
      rw [entriesAdd, lruTake_some_add k st.cache v rest htake key]
      by_cases hk : k = key
      · ext x
        simp only [hk, if_true, insertOpt, Option.getD_some, opAdd,
          Finset.mem_union, Finset.mem_insert, Finset.mem_singleton]
        tauto
      · ext x
        simp only [hk, if_false, opAdd, Finset.mem_union,
          Finset.not_mem_empty]
        tauto
    | none =>
      rw [insert_del_add_miss cap st k n htake, pushMiss_add]
      by_cases hk : k = key <;>
        simp [hk, DelAddRoaringBitmap.new_del_add, opAdd]

/-- Prepending an operation unions its deletion contribution. -/
theorem delInserted_cons (op : CacheOp) (ops : List CacheOp) (key : List Nat) :
    delInserted (op :: ops) key = opDel op key ∪ delInserted ops key := by
  cases op with
  | insDel k n =>
    unfold delInserted opDel
    rw [List.filterMap_cons]
    by_cases hk : k = key <;> simp [hk, ← Finset.insert_eq]
  | insAdd k n =>
    unfold delInserted opDel
    rw [List.filterMap_cons]
    simp
  | insDelAdd k n =>
    unfold delInserted opDel
    rw [List.filterMap_cons]
    by_cases hk : k = key <;> simp [hk, ← Finset.insert_eq]

/-- Prepending an operation unions its addition contribution. -/
theorem addInserted_cons (op : CacheOp) (ops : List CacheOp) (key : List Nat) :
    addInserted (op :: ops) key = opAdd op key ∪ addInserted ops key := by
  cases op with
  | insDel k n =>
    unfold addInserted opAdd
    rw [List.filterMap_cons]
    simp
  | insAdd k n =>
    unfold addInserted opAdd
    rw [List.filterMap_cons]
    by_cases hk : k = key <;> simp [hk, ← Finset.insert_eq]
  | insDelAdd k n =>
    unfold addInserted opAdd
    rw [List.filterMap_cons]
    by_cases hk : k = key <;> simp [hk, ← Finset.insert_eq]

/-- Folding a sequence of inserts accumulates exactly the inserted
deletion docids over the combined sorter-and-cache content. -/
theorem foldl_ops_del (cap : Nat) (ops : List CacheOp) :
    ∀ (st : SorterCache) (key : List Nat),
    entriesDel (ops.foldl (applyOp cap) st).sorter key ∪
      entriesDel (ops.foldl (applyOp cap) st).cache key =
      (entriesDel st.sorter key ∪ entriesDel st.cache key) ∪
        delInserted ops key := by
  induction ops with
  | nil => intro st key; simp [delInserted]
  | cons op ops ih =>
    intro st key
    rw [List.foldl_cons, ih (applyOp cap st op) key, applyOp_del,
      delInserted_cons]
    ext x
    simp only [Finset.mem_union]
    tauto

/-- Folding a sequence of inserts accumulates exactly the inserted
addition docids. -/
theorem foldl_ops_add (cap : Nat) (ops : List CacheOp) :
    ∀ (st : SorterCache) (key : List Nat),
    entriesAdd (ops.foldl (applyOp cap) st).sorter key ∪
      entriesAdd (ops.foldl (applyOp cap) st).cache key =
      (entriesAdd st.sorter key ∪ entriesAdd st.cache key) ∪
        addInserted ops key := by
  induction ops with
  | nil => intro st key; simp [addInserted]
  | cons op ops ih =>
    intro st key
    rw [List.foldl_cons, ih (applyOp cap st op) key, applyOp_add,
      addInserted_cons]
    ext x
    simp only [Finset.mem_union]
    tauto

/-- Draining flushes every cached entry: the resulting stream carries the
union of what was already flushed and what was still cached (deletion
side). -/
theorem into_sorter_del (st : SorterCache) (key : List Nat) :
    entriesDel (into_sorter st) key =
      entriesDel st.sorter key ∪ entriesDel st.cache key := by
  unfold into_sorter
  suffices h : ∀ (entries : List (List Nat × DelAddRoaringBitmap))
      (s : SorterCache),
      entriesDel ((entries.foldl (fun s e => write_entry_to_sorter s e.1 e.2) s).sorter) key =
        entriesDel s.sorter key ∪ entriesDel entries key by
    exact h st.cache { cache := [], sorter := st.sorter }
  intro entries
  induction entries with
  | nil => intro s; simp [entriesDel]
  | cons e l ih =>
    intro s
    rw [List.foldl_cons, ih, write_entry_sorter_del, entriesDel]
    ext x
    simp only [Finset.mem_union]
    tauto

/-- Draining flushes every cached entry (addition side). -/
theorem into_sorter_add (st : SorterCache) (key : List Nat) :
    entriesAdd (into_sorter st) key =
      entriesAdd st.sorter key ∪ entriesAdd st.cache key := by
  unfold into_sorter
  suffices h : ∀ (entries : List (List Nat × DelAddRoaringBitmap))
      (s : SorterCache),
      entriesAdd ((entries.foldl (fun s e => write_entry_to_sorter s e.1 e.2) s).sorter) key =
        entriesAdd s.sorter key ∪ entriesAdd entries key by
    exact h st.cache { cache := [], sorter := st.sorter }
  intro entries
  induction entries with
  | nil => intro s; simp [entriesAdd]
  | cons e l ih =>
    intro s
    rw [List.foldl_cons, ih, write_entry_sorter_add, entriesAdd]
    ext x
    simp only [Finset.mem_union]
    tauto

/-- C4: for every finite sequence of `insert_del_u32`, `insert_add_u32`
and `insert_del_add_u32` calls on a cache of any positive capacity
followed by `into_sorter`, the deletion docids found in the resulting
sorter stream under each key are exactly the deletion inserts issued for
that key, and likewise for additions: no insert is lost (whether its
entry stayed cached until the drain or was flushed by an eviction along
the way) and nothing beyond the set-deduplicated inserts appears. -/
theorem cache_exactly_once (cap : Nat) (_hcap : 1 ≤ cap) (ops : List CacheOp)
    (key : List Nat) :
    entriesDel (into_sorter (runOps cap ops)) key = delInserted ops key ∧
    entriesAdd (into_sorter (runOps cap ops)) key = addInserted ops key := by
  constructor
  · rw [into_sorter_del]
    unfold runOps
    rw [foldl_ops_del cap ops { cache := [], sorter := [] } key]
    simp [entriesDel]
  · rw [into_sorter_add]
    unfold runOps
    rw [foldl_ops_add cap ops { cache := [], sorter := [] } key]
    simp [entriesAdd]

/-- C4 witness: a capacity-1 cache driven through inserts that exercise
the in-place update, the evicting push and the final drain. -/
theorem cache_exactly_once_witness :
    1 ≤ 1 ∧
    (entriesDel (into_sorter (runOps 1
        [CacheOp.insDel [0] 7, CacheOp.insAdd [1] 3, CacheOp.insDelAdd [0] 9]))
        [0] =
      delInserted
        [CacheOp.insDel [0] 7, CacheOp.insAdd [1] 3, CacheOp.insDelAdd [0] 9]
        [0] ∧
    entriesAdd (into_sorter (runOps 1
        [CacheOp.insDel [0] 7, CacheOp.insAdd [1] 3, CacheOp.insDelAdd [0] 9]))
        [0] =
      addInserted
        [CacheOp.insDel [0] 7, CacheOp.insAdd [1] 3, CacheOp.insDelAdd [0] 9]
        [0]) :=
  ⟨by decide,
   cache_exactly_once 1 (by decide)
     [CacheOp.insDel [0] 7, CacheOp.insAdd [1] 3, CacheOp.insDelAdd [0] 9] [0]⟩

/-! ## JSON values and the two field-path walkers -/

/-- JSON values (serde_json's `Value`): objects keep their fields as an
ordered association list, numbers carry an opaque integer payload. -/
inductive Json
  | null
  | bool (b : Bool)
  | num (n : Int)
  | str (s : List Char)
  | arr (items : List Json)
  | obj (fields : List (List Char × Json))

/-- The dotted base-key composition of the walkers: the key itself on an
empty base, otherwise `base SPLIT_SYMBOL key`. -/
def composeKey (base key : List Char) : List Char :=
  if base = [] then key else base ++ [SPLIT_SYMBOL] ++ key

/-- Embedding of `perm_json_p::select_field` (mod.rs): the accept list is
permissive on both sides of the containment and the skip list takes
precedence. -/
def select_field (field_name : List Char) (selectors : Option (List (List Char)))
    (skip_selectors : List (List Char)) : Bool :=
  (match selectors with
   | none => true
   | some sels =>
     sels.any fun sel => contained_in sel field_name || contained_in field_name sel)
  && !(skip_selectors.any fun skip =>
        contained_in skip field_name || contained_in field_name skip)

mutual

/-- Embedding of `perm_json_p::seek_leaf_values_in_object`
(`milli/src/update/new/extract/mod.rs`): an empty object emits itself as
a leaf at the base key, then every selected field is recursed into; the
function returns the leaves handed to the seeker, in emission order. -/
def seek_leaf_values_in_object (value : List (List Char × Json))
    (selectors : Option (List (List Char))) (skip_selectors : List (List Char))
    (base_key : List Char) : List (List Char × Json) :=
  (if value.isEmpty then [(base_key, Json.obj [])] else []) ++
    seekObjFields value selectors skip_selectors base_key
termination_by (sizeOf value, 1)

/-- The field loop of `seek_leaf_values_in_object` (mod.rs). -/
def seekObjFields (fields : List (List Char × Json))
    (selectors : Option (List (List Char))) (skip_selectors : List (List Char))
    (base_key : List Char) : List (List Char × Json) :=
  match fields with
  | [] => []
  | (key, v) :: rest =>
    (if select_field (composeKey base_key key) selectors skip_selectors then
      (match v with
       | Json.obj o =>
         seek_leaf_values_in_object o selectors skip_selectors (composeKey base_key key)
       | Json.arr a =>
         seek_leaf_values_in_array a selectors skip_selectors (composeKey base_key key)
       | v => [(composeKey base_key key, v)])
     else []) ++ seekObjFields rest selectors skip_selectors base_key
termination_by (sizeOf fields, 0)

/-- Embedding of `perm_json_p::seek_leaf_values_in_array` (mod.rs): an
empty array emits itself at the base key, then every element is recursed
into under the same base key. -/
def seek_leaf_values_in_array (values : List Json)
    (selectors : Option (List (List Char))) (skip_selectors : List (List Char))
    (base_key : List Char) : List (List Char × Json) :=
  (if values.isEmpty then [(base_key, Json.arr [])] else []) ++
    seekArrItems values selectors skip_selectors base_key
termination_by (sizeOf values, 1)

/-- The element loop of `seek_leaf_values_in_array` (mod.rs). -/
def seekArrItems (values : List Json)
    (selectors : Option (List (List Char))) (skip_selectors : List (List Char))
    (base_key : List Char) : List (List Char × Json) :=
  match values with
  | [] => []
  | v :: rest =>
    (match v with
     | Json.obj o => seek_leaf_values_in_object o selectors skip_selectors base_key
     | Json.arr a => seek_leaf_values_in_array a selectors skip_selectors base_key
     | v => [(base_key, v)]) ++ seekArrItems rest selectors skip_selectors base_key
termination_by (sizeOf values, 0)

end

mutual

/-- Embedding of the legacy `perm_json_p::seek_leaf_values_in_object`
(`milli/src/update/new/extract/tokenize_document.rs`): no skip list and no
emission of empty containers; only the field loop. -/
def seek_leaf_values_in_object_legacy (value : List (List Char × Json))
    (selectors : Option (List (List Char))) (base_key : List Char) :
    List (List Char × Json) :=
  match value with
  | [] => []
  | (key, v) :: rest =>
    (if (match selectors with
         | none => true
         | some sels =>
           sels.any fun sel =>
             contained_in sel (composeKey base_key key) ||
               contained_in (composeKey base_key key) sel) then
      (match v with
       | Json.obj o =>
         seek_leaf_values_in_object_legacy o selectors (composeKey base_key key)
       | Json.arr a =>
         seek_leaf_values_in_array_legacy a selectors (composeKey base_key key)
       | v => [(composeKey base_key key, v)])
     else []) ++ seek_leaf_values_in_object_legacy rest selectors base_key
termination_by sizeOf value

/-- Embedding of the legacy `perm_json_p::seek_leaf_values_in_array`
(tokenize_document.rs). -/
def seek_leaf_values_in_array_legacy (values : List Json)
    (selectors : Option (List (List Char))) (base_key : List Char) :
    List (List Char × Json) :=
  match values with
  | [] => []
  | v :: rest =>
    (match v with
     | Json.obj o => seek_leaf_values_in_object_legacy o selectors base_key
     | Json.arr a => seek_leaf_values_in_array_legacy a selectors base_key
     | v => [(base_key, v)]) ++ seek_leaf_values_in_array_legacy rest selectors base_key
termination_by sizeOf values

end

/-- Unfolding equation of the field loop on an empty field list. -/
theorem seekObjFields_nil (selectors : Option (List (List Char)))
    (skip_selectors : List (List Char)) (base_key : List Char) :
    seekObjFields [] selectors skip_selectors base_key = [] := by
  rw [seekObjFields.eq_def]

/-- Unfolding equation of the field loop on a first field. -/
theorem seekObjFields_cons (k : List Char) (v : Json)
    (rest : List (List Char × Json)) (selectors : Option (List (List Char)))
    (skip_selectors : List (List Char)) (base_key : List Char) :
    seekObjFields ((k, v) :: rest) selectors skip_selectors base_key =
      (if select_field (composeKey base_key k) selectors skip_selectors = true then
        (match v with
         | Json.obj o =>
           seek_leaf_values_in_object o selectors skip_selectors (composeKey base_key k)
         | Json.arr a =>
           seek_leaf_values_in_array a selectors skip_selectors (composeKey base_key k)
         | v => [(composeKey base_key k, v)])
       else []) ++ seekObjFields rest selectors skip_selectors base_key := by
  rw [seekObjFields.eq_def]

/-- The field loop distributes over list append. -/
theorem seekObjFields_append (l₁ l₂ : List (List Char × Json))
    (selectors : Option (List (List Char))) (skip_selectors : List (List Char))
    (base_key : List Char) :
    seekObjFields (l₁ ++ l₂) selectors skip_selectors base_key =
      seekObjFields l₁ selectors skip_selectors base_key ++
        seekObjFields l₂ selectors skip_selectors base_key := by
  induction l₁ with
  | nil => rw [List.nil_append, seekObjFields_nil, List.nil_append]
  | cons e l ih =>
    obtain ⟨k, v⟩ := e
    rw [List.cons_append, seekObjFields_cons, seekObjFields_cons, ih,
      List.append_assoc]

/-- C5 counterexample: the legacy walker of
`update/new/extract/tokenize_document.rs`, applied to an object whose
field `a` holds an empty object, emits no leaf at all; in particular the
empty object is not emitted, so the claim fails for that implementation
of the walker. -/
theorem seek_empty_leaf_counterexample :
    seek_leaf_values_in_object_legacy [(['a'], Json.obj [])] none [] = [] ∧
    ((['a'], Json.obj []) ∉
      seek_leaf_values_in_object_legacy [(['a'], Json.obj [])] none []) := by
  have h : seek_leaf_values_in_object_legacy [(['a'], Json.obj [])] none [] = [] := by
    rw [seek_leaf_values_in_object_legacy.eq_def]
    simp only
    rw [seek_leaf_values_in_object_legacy.eq_def]
    simp only
    rw [seek_leaf_values_in_object_legacy.eq_def]
    simp
  exact ⟨h, by simp [h]⟩

/-- C5 (amended): in the walker of `update/new/extract/mod.rs`, an empty
object or empty array encountered at any composed key is itself emitted
as a leaf with the empty container as its value: the walker entered on an
empty container emits exactly that leaf at its base key, and an empty
container sitting in any selected field of a walked object contributes
its leaf at the composed key.  (The legacy walker in
`update/new/extract/tokenize_document.rs` does not emit such leaves.) -/
theorem seek_empty_leaf_spec :
    (∀ (selectors : Option (List (List Char))) (skip_selectors : List (List Char))
        (base_key : List Char),
      seek_leaf_values_in_object [] selectors skip_selectors base_key =
        [(base_key, Json.obj [])])
    ∧ (∀ (selectors : Option (List (List Char))) (skip_selectors : List (List Char))
        (base_key : List Char),
      seek_leaf_values_in_array [] selectors skip_selectors base_key =
        [(base_key, Json.arr [])])
    ∧ (∀ (pre post : List (List Char × Json)) (key : List Char) (v : Json)
        (selectors : Option (List (List Char))) (skip_selectors : List (List Char))
        (base_key : List Char),
        (v = Json.obj [] ∨ v = Json.arr []) →
        select_field (composeKey base_key key) selectors skip_selectors = true →
        (composeKey base_key key, v) ∈
          seek_leaf_values_in_object (pre ++ (key, v) :: post) selectors
            skip_selectors base_key) := by
  refine ⟨?_, ?_, ?_⟩
  · intro selectors skip_selectors base_key
    rw [seek_leaf_values_in_object, seekObjFields_nil]
    simp
  · intro selectors skip_selectors base_key
    rw [seek_leaf_values_in_array, seekArrItems.eq_def]
    simp
  · intro pre post key v selectors skip_selectors base_key hv hsel
    rw [seek_leaf_values_in_object]
    refine List.mem_append.mpr (Or.inr ?_)
    rw [seekObjFields_append]
    refine List.mem_append.mpr (Or.inr ?_)
    rw [seekObjFields_cons, if_pos hsel]
    rcases hv with rfl | rfl
    · simp only
      rw [seek_leaf_values_in_object, seekObjFields_nil]
      simp
    · simp only
      rw [seek_leaf_values_in_array, seekArrItems.eq_def]
      simp

/-- C5 witness: the amended theorem applied to the object
`{"b": {}}` walked under base key `a` with no selectors. -/
theorem seek_empty_leaf_spec_witness :
    (Json.obj [] = Json.obj [] ∨ Json.obj [] = Json.arr []) ∧
    select_field (composeKey ['a'] ['b']) none [] = true ∧
    (composeKey ['a'] ['b'], Json.obj []) ∈
      seek_leaf_values_in_object [(['b'], Json.obj [])] none [] ['a'] :=
  ⟨Or.inl rfl, by decide,
   seek_empty_leaf_spec.2.2 [] [] ['b'] (Json.obj []) none [] ['a']
     (Or.inl rfl) (by decide)⟩

/-! ## Snapshot creation trace (meilisearch-lib/src/index_controller/snapshot.rs) -/

/-- File names are character lists; paths are component lists. -/
abbrev FsPath : Type := List (List Char)

/-- A filesystem: the bytes of the file at each path, when one exists
(directories are not tracked: creating one changes no file). -/
abbrev Fs : Type := FsPath → Option (List Nat)

/-- The filesystem operations snapshot creation performs. -/
inductive SnapOp
  | mkdir (p : FsPath)
  | writeFile (p : FsPath) (data : List Nat)
  | appendFile (p : FsPath) (data : List Nat)
  | renameFile (src dst : FsPath)

/-- Executing one operation: `writeFile` creates or truncates,
`appendFile` extends (creating an empty file when absent), `renameFile`
is the atomic `persist`, and `mkdir` touches no file. -/
def execOp (fs : Fs) : SnapOp → Fs
  | .mkdir _ => fs
  | .writeFile p data => fun q => if q = p then some data else fs q
  | .appendFile p data =>
    fun q => if q = p then some ((fs p).getD [] ++ data) else fs q
  | .renameFile src dst =>
    fun q => if q = dst then fs src else if q = src then none else fs q

/-- Executing a sequence of operations. -/
def execOps (fs : Fs) (ops : List SnapOp) : Fs :=
  ops.foldl execOp fs

/-- The nine characters of the `".snapshot"` extension. -/
def snapshotSuffix : List Char := ['.', 's', 'n', 'a', 'p', 's', 'h', 'o', 't']

/-- The final snapshot file name `<db_name>.snapshot`. -/
def snapshotFileName (db_name : List Char) : List Char :=
  db_name ++ snapshotSuffix

/-- The name `tempfile::NamedTempFile::new_in` gives the temporary file:
the `.tmp` marker followed by the six random alphanumeric characters the
tempfile crate draws. -/
def tempFileName (suffix : List Char) : List Char :=
  ['.', 't', 'm', 'p'] ++ suffix

/-- The operation trace of `SnapshotJob::run_sync` (and of the blocking
closure of `SnapshotService::perform_snapshot`): create the destination
directory, create a temporary directory, copy the meta environment, the
update files and the indexes into it (`tmp_writes`, all under the
temporary directory), create a uniquely named temporary file inside the
destination directory, stream the gzip-compressed tar into it
(`arch_chunks`), and finally `persist` it by an atomic rename to
`<db_name>.snapshot`. -/
def runSyncFront (snapshot_dir : FsPath) (tmp_dir : FsPath)
    (tmp_writes : List (FsPath × List Nat)) (suffix : List Char)
    (arch_chunks : List (List Nat)) : List SnapOp :=
  SnapOp.mkdir snapshot_dir :: SnapOp.mkdir tmp_dir ::
    ((tmp_writes.map fun w => SnapOp.writeFile (tmp_dir ++ w.1) w.2) ++
      (SnapOp.writeFile (snapshot_dir ++ [tempFileName suffix]) [] ::
        (arch_chunks.map fun c =>
          SnapOp.appendFile (snapshot_dir ++ [tempFileName suffix]) c)))

/-- The full trace of `run_sync`: the front part followed by the atomic
rename of the temporary file to the final snapshot name. -/
def runSyncOps (snapshot_dir : FsPath) (db_name : List Char) (tmp_dir : FsPath)
    (tmp_writes : List (FsPath × List Nat)) (suffix : List Char)
    (arch_chunks : List (List Nat)) : List SnapOp :=
  runSyncFront snapshot_dir tmp_dir tmp_writes suffix arch_chunks ++
    [SnapOp.renameFile (snapshot_dir ++ [tempFileName suffix])
      (snapshot_dir ++ [snapshotFileName db_name])]

/-- Whether an operation reads or writes the file at a path. -/
def SnapOp.touches (op : SnapOp) (q : FsPath) : Prop :=
  match op with
  | .mkdir _ => False
  | .writeFile p _ => p = q
  | .appendFile p _ => p = q
  | .renameFile src dst => src = q ∨ dst = q

/-- An operation that does not touch a path leaves its file unchanged. -/
theorem execOp_not_touches (fs : Fs) (op : SnapOp) (q : FsPath)
    (h : ¬ op.touches q) : execOp fs op q = fs q := by
  cases op with
  | mkdir p => rfl
  | writeFile p data =>
    simp only [SnapOp.touches] at h
    show (if q = p then some data else fs q) = fs q
    rw [if_neg fun hq => h hq.symm]
  | appendFile p data =>
    simp only [SnapOp.touches] at h
    show (if q = p then some ((fs p).getD [] ++ data) else fs q) = fs q
    rw [if_neg fun hq => h hq.symm]
  | renameFile src dst =>
    simp only [SnapOp.touches] at h
    push_neg at h
    show (if q = dst then fs src else if q = src then none else fs q) = fs q
    rw [if_neg fun hq => h.2 hq.symm, if_neg fun hq => h.1 hq.symm]

/-- A sequence of operations none of which touches a path leaves its
file unchanged. -/
theorem execOps_not_touches (ops : List SnapOp) :
    ∀ (fs : Fs) (q : FsPath), (∀ op ∈ ops, ¬ op.touches q) →
    execOps fs ops q = fs q := by
  induction ops with
  | nil => intro fs q _; rfl
  | cons op ops ih =>
    intro fs q h
    show execOps (execOp fs op) ops q = fs q
    rw [ih (execOp fs op) q fun u hu => h u (List.mem_cons_of_mem op hu),
      execOp_not_touches fs op q (h op (List.mem_cons_self op ops))]

/-- The temporary file name never collides with `<db_name>.snapshot`:
the former has ten characters with its only dot first, the latter ends in
the nine-character `.snapshot` extension. -/
theorem tempFileName_ne (suffix db_name : List Char)
    (hsuffix : suffix.length = 6) :
    tempFileName suffix ≠ snapshotFileName db_name := by
  intro h
  have hlen := congrArg List.length h
  simp [tempFileName, snapshotFileName, snapshotSuffix, hsuffix] at hlen
  obtain ⟨c, rfl⟩ := List.length_eq_one.mp hlen
  simp [tempFileName, snapshotFileName, snapshotSuffix] at h

/-- Executing concatenated operation lists composes. -/
theorem execOps_append (fs : Fs) (l₁ l₂ : List SnapOp) :
    execOps fs (l₁ ++ l₂) = execOps (execOps fs l₁) l₂ :=
  List.foldl_append _ _ _ _

/-- Streaming chunks into a file appends their concatenation. -/
theorem execOps_appends (p : FsPath) (chunks : List (List Nat)) :
    ∀ (fs : Fs) (cur : List Nat), fs p = some cur →
    execOps fs (chunks.map fun c => SnapOp.appendFile p c) p =
      some (cur ++ chunks.flatten) := by
  induction chunks with
  | nil =>
    intro fs cur h
    simpa [execOps] using h
  | cons c chunks ih =>
    intro fs cur h
    show execOps (execOp fs (SnapOp.appendFile p c)) (chunks.map _) p = _
    rw [ih _ (cur ++ c) (by simp [execOp, h])]
    simp

/-- C7: snapshot creation never exposes a partially written archive: with
the destination initially holding no `<db_name>.snapshot` file, every
proper prefix of the `run_sync` trace (a crash point) leaves no file at
`<db_name>.snapshot`, and only the final atomic rename of the uniquely
named temporary file makes the complete archive appear under that
name. -/
theorem snapshot_atomic_publication (snapshot_dir : FsPath) (db_name : List Char)
    (tmp_dir : FsPath) (tmp_writes : List (FsPath × List Nat))
    (suffix : List Char) (arch_chunks : List (List Nat)) (fs : Fs)
    (hsuffix : suffix.length = 6)
    (htmp : ∀ rest : FsPath,
      tmp_dir ++ rest ≠ snapshot_dir ++ [snapshotFileName db_name])
    (hinit : fs (snapshot_dir ++ [snapshotFileName db_name]) = none) :
    (∀ pre : List SnapOp,
      pre <+: runSyncOps snapshot_dir db_name tmp_dir tmp_writes suffix arch_chunks →
      pre.length <
        (runSyncOps snapshot_dir db_name tmp_dir tmp_writes suffix arch_chunks).length →
      execOps fs pre (snapshot_dir ++ [snapshotFileName db_name]) = none)
    ∧ execOps fs (runSyncOps snapshot_dir db_name tmp_dir tmp_writes suffix arch_chunks)
        (snapshot_dir ++ [snapshotFileName db_name]) = some arch_chunks.flatten := by
  have hne : snapshot_dir ++ [tempFileName suffix] ≠
      snapshot_dir ++ [snapshotFileName db_name] := by
    intro h
    have h2 := List.append_cancel_left h
    exact tempFileName_ne suffix db_name hsuffix (by injection h2)
  have hfront : ∀ op ∈ runSyncFront snapshot_dir tmp_dir tmp_writes suffix arch_chunks,
      ¬ op.touches (snapshot_dir ++ [snapshotFileName db_name]) := by
    intro op hop
    unfold runSyncFront at hop
    rcases List.mem_cons.mp hop with rfl | hop
    · simp [SnapOp.touches]
    rcases List.mem_cons.mp hop with rfl | hop
    · simp [SnapOp.touches]
    rcases List.mem_append.mp hop with hop | hop
    · obtain ⟨w, _, rfl⟩ := List.mem_map.mp hop
      simp only [SnapOp.touches]
      exact htmp w.1
    rcases List.mem_cons.mp hop with rfl | hop
    · simp only [SnapOp.touches]
      exact hne
    · obtain ⟨c, _, rfl⟩ := List.mem_map.mp hop
      simp only [SnapOp.touches]
      exact hne
  constructor
  · intro pre hpre hlt
    have hlen : (runSyncOps snapshot_dir db_name tmp_dir tmp_writes suffix
        arch_chunks).length =
        (runSyncFront snapshot_dir tmp_dir tmp_writes suffix arch_chunks).length + 1 := by
      simp [runSyncOps]
    have hfrontpre : pre <+:
        runSyncFront snapshot_dir tmp_dir tmp_writes suffix arch_chunks := by
      refine List.prefix_of_prefix_length_le hpre
        ⟨[SnapOp.renameFile (snapshot_dir ++ [tempFileName suffix])
          (snapshot_dir ++ [snapshotFileName db_name])], rfl⟩ ?_
      omega
    rw [execOps_not_touches pre fs _
        fun op hop => hfront op (hfrontpre.subset hop), hinit]
  · have hren : ∀ g : Fs,
        execOp g (SnapOp.renameFile (snapshot_dir ++ [tempFileName suffix])
          (snapshot_dir ++ [snapshotFileName db_name]))
          (snapshot_dir ++ [snapshotFileName db_name]) =
        g (snapshot_dir ++ [tempFileName suffix]) := by
      intro g
      simp [execOp]
    show execOps fs
        (runSyncFront snapshot_dir tmp_dir tmp_writes suffix arch_chunks ++
          [SnapOp.renameFile (snapshot_dir ++ [tempFileName suffix])
            (snapshot_dir ++ [snapshotFileName db_name])])
        (snapshot_dir ++ [snapshotFileName db_name]) = some arch_chunks.flatten
    rw [execOps_append]
    show execOp (execOps fs (runSyncFront snapshot_dir tmp_dir tmp_writes suffix
        arch_chunks))
        (SnapOp.renameFile (snapshot_dir ++ [tempFileName suffix])
          (snapshot_dir ++ [snapshotFileName db_name]))
        (snapshot_dir ++ [snapshotFileName db_name]) = some arch_chunks.flatten
    rw [hren]
    show execOps (execOp (execOp fs (SnapOp.mkdir snapshot_dir))
        (SnapOp.mkdir tmp_dir))
        ((tmp_writes.map fun w => SnapOp.writeFile (tmp_dir ++ w.1) w.2) ++
          (SnapOp.writeFile (snapshot_dir ++ [tempFileName suffix]) [] ::
            (arch_chunks.map fun c =>
              SnapOp.appendFile (snapshot_dir ++ [tempFileName suffix]) c)))
        (snapshot_dir ++ [tempFileName suffix]) = some arch_chunks.flatten
    rw [execOps_append]
    show execOps (execOp (execOps (execOp (execOp fs (SnapOp.mkdir snapshot_dir))
        (SnapOp.mkdir tmp_dir))
        (tmp_writes.map fun w => SnapOp.writeFile (tmp_dir ++ w.1) w.2))
        (SnapOp.writeFile (snapshot_dir ++ [tempFileName suffix]) []))
        (arch_chunks.map fun c =>
          SnapOp.appendFile (snapshot_dir ++ [tempFileName suffix]) c)
        (snapshot_dir ++ [tempFileName suffix]) = some arch_chunks.flatten
    rw [execOps_appends (snapshot_dir ++ [tempFileName suffix]) arch_chunks _ []
        (by simp [execOp])]
    simp

/-- C7 witness: a concrete trace writing two archive chunks into a
destination directory `dst` for database name `db`, starting from an
empty filesystem. -/
theorem snapshot_atomic_publication_witness :
    (['a', 'b', 'c', 'd', 'e', 'f'] : List Char).length = 6 ∧
    (∀ rest : FsPath, ([['t', 'm', 'p']] : FsPath) ++ rest ≠
      [['d', 's', 't']] ++ [snapshotFileName ['d', 'b']]) ∧
    ((fun _ => none : Fs) ([['d', 's', 't']] ++ [snapshotFileName ['d', 'b']]) = none) ∧
    ((∀ pre : List SnapOp,
      pre <+: runSyncOps [['d', 's', 't']] ['d', 'b'] [['t', 'm', 'p']]
        [([['f']], [1, 2])] ['a', 'b', 'c', 'd', 'e', 'f'] [[1], [2, 3]] →
      pre.length < (runSyncOps [['d', 's', 't']] ['d', 'b'] [['t', 'm', 'p']]
        [([['f']], [1, 2])] ['a', 'b', 'c', 'd', 'e', 'f'] [[1], [2, 3]]).length →
      execOps (fun _ => none) pre
        ([['d', 's', 't']] ++ [snapshotFileName ['d', 'b']]) = none)
    ∧ execOps (fun _ => none)
        (runSyncOps [['d', 's', 't']] ['d', 'b'] [['t', 'm', 'p']]
          [([['f']], [1, 2])] ['a', 'b', 'c', 'd', 'e', 'f'] [[1], [2, 3]])
        ([['d', 's', 't']] ++ [snapshotFileName ['d', 'b']]) =
          some ([[1], [2, 3]] : List (List Nat)).flatten) := by
  have hs : (['a', 'b', 'c', 'd', 'e', 'f'] : List Char).length = 6 := by decide
  have ht : ∀ rest : FsPath, ([['t', 'm', 'p']] : FsPath) ++ rest ≠
      [['d', 's', 't']] ++ [snapshotFileName ['d', 'b']] := by
    intro rest h
    simp [snapshotFileName, snapshotSuffix] at h
  have hi : (fun _ => none : Fs)
      ([['d', 's', 't']] ++ [snapshotFileName ['d', 'b']]) = none := rfl
  exact ⟨hs, ht, hi,
    snapshot_atomic_publication [['d', 's', 't']] ['d', 'b'] [['t', 'm', 'p']]
      [([['f']], [1, 2])] ['a', 'b', 'c', 'd', 'e', 'f'] [[1], [2, 3]]
      (fun _ => none) hs ht hi⟩
